import Mathlib

/-!
# YABMS `mmult`: matrix-multiplication kernels and benchmarking harness

A shallow embedding of `src/mmult/impl/ref.c`, `src/mmult/impl/naive.c`,
`src/mmult/include/types.h` and `src/mmult/main.c`, and theorems about it.

Conventions of the embedding

* `float` is an arbitrary carrier `α` with a zero, an addition and a
  multiplication about which nothing is assumed (no associativity, no
  commutativity, no unit laws): every statement therefore holds for IEEE
  binary32 arithmetic, and it speaks about the exact order of the operations.
* A buffer is a `List α`; an access outside the buffer is a fault (`none`).
* `size_t` and `uint64_t` are natural numbers reduced modulo `2 ^ 64`.
* `int` is an integer reduced to `[-2 ^ 31, 2 ^ 31)`: this is how the target
  converts a `size_t` to `int`, and it is what the target's two's-complement
  arithmetic makes of an `int` overflow (which ISO C leaves undefined).
* The macros of `common/macros.h` and the kernels `opt`, `vec`, `para` are
  not among the sources; what `main` takes from them is a parameter, `World`.
  The calls of `impl_ref` and of the selected kernel in `main` are calls of
  the kernels of this file, and a fault of a kernel is a fault of `main`.
-/

/-! ## Machine integers -/

/-- Reduction of a natural number to the range of `size_t` (64 bits). -/
def size_t (x : Nat) : Nat := x % 2 ^ 64

/-- Reduction of an integer to the range of `int` (32 bits, two's complement). -/
def to_int (x : Int) : Int := (x + 2 ^ 31) % 2 ^ 32 - 2 ^ 31

/-- Reduction of an integer to the range of `uint64_t`. -/
def to_uint64 (x : Int) : Nat := (x % 2 ^ 64).toNat

/-- The constant `UINT64_MAX`. -/
def UINT64_MAX : Nat := 2 ^ 64 - 1

/-! ## `include/types.h` -/

/-- The record `args_t` of `include/types.h`: three buffers, three `size_t`
dimensions and two `int` fields. -/
structure args_t (α : Type) where
  A : List α
  B : List α
  R : List α
  M : Nat
  N : Nat
  P : Nat
  cpu : Int
  nthreads : Int

/-! ## Loops and memory accesses -/

/-- The loop `for (c = 0; c < n; ++c) body`, threading a state through the
body; a fault in the body is a fault of the loop. -/
def for_loop {σ : Type} (n : Nat) (body : Nat → σ → Option σ) (s : σ) : Option σ :=
  (List.range n).foldlM (fun acc c => body c acc) s

/-- The read `buf[idx]`; it faults outside the buffer. -/
def load {α : Type} (buf : List α) (idx : Int) : Option α :=
  if 0 ≤ idx then buf[idx.toNat]? else none

/-- The write `buf[idx] = v`; it faults outside the buffer. -/
def store {α : Type} (buf : List α) (idx : Int) (v : α) : Option (List α) :=
  if 0 ≤ idx ∧ idx.toNat < buf.length then some (buf.set idx.toNat v) else none

section Kernels

variable {α : Type} [Zero α] [Add α] [Mul α]

/-! ## `impl/ref.c` -/

/-- The kernel `impl_ref`: dimensions and counters are `size_t`. The result
is the output buffer `R` after the call. -/
def impl_ref (args : args_t α) : Option (List α) :=
  let M := args.M
  let N := args.N
  let P := args.P
  let A := args.A
  let B := args.B
  for_loop M (fun i R =>
    for_loop P (fun j R => do
      let sum ← for_loop N (fun k sum => do
        let a ← load A (size_t (size_t (i * N) + k))
        let b ← load B (size_t (size_t (k * P) + j))
        pure (sum + a * b)) (0 : α)
      store R (size_t (size_t (i * P) + j)) sum) R) args.R

/-! ## `impl/naive.c` -/

/-- The kernel `impl_scalar_naive`: the `size_t` dimensions are converted to
`int`, and counters and indices are `int`. -/
def impl_scalar_naive (args : args_t α) : Option (List α) :=
  let A := args.A
  let B := args.B
  let M : Int := to_int args.M
  let N : Int := to_int args.N
  let P : Int := to_int args.P
  for_loop M.toNat (fun i R =>
    for_loop P.toNat (fun j R => do
      let sum ← for_loop N.toNat (fun k sum => do
        let a ← load A (to_int (to_int (i * N) + k))
        let b ← load B (to_int (to_int (k * P) + j))
        pure (sum + a * b)) (0 : α)
      store R (to_int (to_int (i * P) + j)) sum) R) args.R

/-- The innermost loop of `impl_scalar_naive` for the cell `(i, j)`. -/
def naive_dot (args : args_t α) (i j : Nat) : Option α :=
  for_loop (to_int args.N).toNat (fun k sum => do
    let a ← load args.A (to_int (to_int (i * to_int args.N) + k))
    let b ← load args.B (to_int (to_int (k * to_int args.P) + j))
    pure (sum + a * b)) (0 : α)

/-- The body of the middle loop of `impl_scalar_naive`: the cell `(i, j)`. -/
def naive_cell (args : args_t α) (i j : Nat) (R : List α) : Option (List α) := do
  let sum ← naive_dot args i j
  store R (to_int (to_int (i * to_int args.P) + j)) sum

/-- The body of the outer loop of `impl_scalar_naive`: the row `i`. -/
def naive_row (args : args_t α) (i : Nat) (R : List α) : Option (List α) :=
  for_loop (to_int args.P).toNat (naive_cell args i) R

/-! ## The contract of a kernel -/

/-- The entry `(i, j)` of the product as the contract words it: the sum over
`k = 0 .. N-1`, accumulated in increasing `k` starting from `0`, of
`A[i*N + k] * B[k*P + j]`. -/
def matmul_entry (A B : List α) (N P i j : Nat) : α :=
  (List.range N).foldl (fun acc k => acc + A.getD (i * N + k) 0 * B.getD (k * P + j) 0) 0

/-- A workload in memory: `A` has `M*N` elements, `B` has `N*P` elements, the
output buffer has room for `M*P` elements, and each buffer is an object of a
64-bit address space. -/
def workload (args : args_t α) : Prop :=
  args.A.length = args.M * args.N ∧ args.B.length = args.N * args.P ∧
  args.M * args.P ≤ args.R.length ∧
  args.A.length < 2 ^ 64 ∧ args.B.length < 2 ^ 64 ∧ args.R.length < 2 ^ 64

/-- The output buffer after the rows `0 .. m-1` of the reference kernel: the
entries below `m * P` are the contract's sums, the others are untouched. -/
def ref_post (A B : List α) (N P m : Nat) (R0 R : List α) : Prop :=
  R.length = R0.length ∧
  ∀ t, R[t]? = if t < m * P then some (matmul_entry A B N P (t / P) (t % P)) else R0[t]?

/-- The output buffer after the columns `0 .. n-1` of row `i`. -/
def ref_row_post (A B : List α) (N P i n : Nat) (R0 R : List α) : Prop :=
  R.length = R0.length ∧
  ∀ t, R[t]? = if i * P ≤ t ∧ t < i * P + n then some (matmul_entry A B N P i (t - i * P))
    else R0[t]?

end Kernels

/-! ## Concrete workloads -/

/-- A 2×3 by 3×2 product over the integers, with four trailing guard
elements in the output buffer. -/
def small_args : args_t Int :=
  ⟨[1, 2, 3, 4, 5, 6], [1, 0, 0, 1, 1, 1], [9, 9, 9, 9, 7, 7, 7, 7], 2, 3, 2, 0, 1⟩

/-- A workload with `M = 2 ^ 32`, `N = P = 1`: `A` holds `2 ^ 32` ones, `B`
holds a one, and the output buffer (with its four guard elements) holds `r`
everywhere. -/
def wide_args (r : Int) : args_t Int :=
  ⟨List.replicate (2 ^ 32) 1, [1], List.replicate (2 ^ 32 + 4) r, 2 ^ 32, 1, 1, 0, 1⟩

/-- A workload with `N = 2 ^ 32 + 1`, `M = P = 1`: `A` and `B` hold
`2 ^ 32 + 1` ones each, and the output buffer holds `M * P + 4 = 5`
elements, all `7`. -/
def long_args : args_t Int :=
  ⟨List.replicate (2 ^ 32 + 1) 1, List.replicate (2 ^ 32 + 1) 1, [7, 7, 7, 7, 7],
    1, 2 ^ 32 + 1, 1, 0, 1⟩

/-- A workload with `M = P = 46341`, `N = 1`, every dimension within the
range of `int`, whose output buffer has `M * P + 4` elements. -/
def square_args : args_t Int :=
  ⟨List.replicate 46341 1, List.replicate 46341 1,
    List.replicate (46341 * 46341 + 4) 0, 46341, 1, 46341, 0, 1⟩

namespace mmult

/-! ## `main.c`: option parsing -/

/-- The kernels `main` can dispatch to: the values of the function pointer
`impl` other than `NULL`. -/
inductive Impl where
  | naive
  | opt
  | vec
  | para
  | ref
  deriving DecidableEq, Repr

/-- The variables of `main` that option parsing sets. -/
structure Options where
  nthreads : Int
  cpu : Int
  nruns : Int
  nstdevs : Int
  M : Nat
  N : Nat
  P : Nat
  impl : Option Impl
  impl_str : Option String
  deriving DecidableEq, Repr

/-- The initial values of lines 41-46: `nthreads = 1`, `cpu = 0`,
`nruns = 100`, `nstdevs = 2`, `M = N = P = 0`, `impl = NULL`,
`impl_str = NULL`. -/
def init_options : Options := ⟨1, 0, 100, 2, 0, 0, 0, none, none⟩

/-- The C library's `isspace` in the C locale. -/
def isspace (c : Char) : Bool := c.toNat = 32 ∨ (9 ≤ c.toNat ∧ c.toNat ≤ 13)

/-- The C library's `isdigit`. -/
def isdigit (c : Char) : Bool := 48 ≤ c.toNat ∧ c.toNat ≤ 57

/-- The value of the longest prefix of decimal digits, continuing from `acc`. -/
def digits_value : List Char → Nat → Nat
  | [], acc => acc
  | c :: cs, acc => if isdigit c then digits_value cs (10 * acc + (c.toNat - 48)) else acc

/-- The C library's `strtol(s, NULL, 10)` on a 64-bit target: leading white
space, an optional sign, the longest run of digits; the value is clamped to
the range of `long`. -/
def strtol (s : String) : Int :=
  let v : Int :=
    match s.toList.dropWhile isspace with
    | '-' :: cs => -(digits_value cs 0 : Int)
    | '+' :: cs => (digits_value cs 0 : Int)
    | cs => (digits_value cs 0 : Int)
  max (-(2 ^ 63)) (min (2 ^ 63 - 1) v)

/-- The C library's `atoi`: `(int) strtol(s, NULL, 10)`. -/
def atoi (s : String) : Int := to_int (strtol s)

/-- Conversion of an `int` to `size_t`, as in `M = atoi(argv[i])`. -/
def size_t_of_int (x : Int) : Nat := (x % 2 ^ 64).toNat

/-- The chain of `strcmp` tests of lines 51-56 on the kernel name. -/
def select_impl (o : Options) (name : String) : Options :=
  if name = "naive" then { o with impl := some Impl.naive, impl_str := some "naive" }
  else if name = "opt" then { o with impl := some Impl.opt, impl_str := some "opt" }
  else if name = "vec" then { o with impl := some Impl.vec, impl_str := some "vec" }
  else if name = "para" then { o with impl := some Impl.para, impl_str := some "para" }
  else if name = "ref" then { o with impl := some Impl.ref, impl_str := some "ref" }
  else { o with impl := none, impl_str := some "unknown" }

/-- The parsing loop of lines 49-66. The list is `argv[i .. argc)`; the slot
`argv[argc]` is the null pointer. An option that is tested with `++i < argc`
and stands last leaves `i = argc`, and the next test of the chain then hands
the null pointer to `strcmp`: a fault (`none`), as is `atoi` of the null
pointer after a trailing `-n`, `--nthreads`, `-c` or `--cpu`. Only
`--nstdevs`, the last test of the chain, may stand last. -/
def parse_args : List String → Options → Option Options
  | [], o => some o
  | a :: rest, o =>
    if a = "-i" ∨ a = "--impl" then
      match rest with
      | v :: rest2 => parse_args rest2 (select_impl o v)
      | [] => none
    else if a = "--M" then
      match rest with
      | v :: rest2 => parse_args rest2 { o with M := size_t_of_int (atoi v) }
      | [] => none
    else if a = "--N" then
      match rest with
      | v :: rest2 => parse_args rest2 { o with N := size_t_of_int (atoi v) }
      | [] => none
    else if a = "--P" then
      match rest with
      | v :: rest2 => parse_args rest2 { o with P := size_t_of_int (atoi v) }
      | [] => none
    else if a = "-n" ∨ a = "--nthreads" then
      match rest with
      | v :: rest2 => parse_args rest2 { o with nthreads := atoi v }
      | [] => none
    else if a = "-c" ∨ a = "--cpu" then
      match rest with
      | v :: rest2 => parse_args rest2 { o with cpu := atoi v }
      | [] => none
    else if a = "--nruns" then
      match rest with
      | v :: rest2 => parse_args rest2 { o with nruns := atoi v }
      | [] => none
    else if a = "--nstdevs" then
      match rest with
      | v :: rest2 => parse_args rest2 { o with nstdevs := atoi v }
      | [] => some o
    else parse_args rest o

/-! ## `main.c`: the run -/

/-- The four messages of lines 121-124. -/
inductive Classification where
  | success
  | wrong_results
  | guard_failed
  | total_failure
  deriving DecidableEq, Repr

/-- The chain of tests of lines 121-124 on `match` and `guard`. -/
def classify (matched guard : Bool) : Classification :=
  if matched && guard then Classification.success
  else if !matched && guard then Classification.wrong_results
  else if matched && !guard then Classification.guard_failed
  else Classification.total_failure

/-- The three `uint64_t` accumulators of line 127. -/
structure Totals where
  sum : Nat
  min : Nat
  max : Nat
  deriving DecidableEq, Repr

/-- The line `Runtime avg: ... | min: ... | max: ...`. -/
structure Stats where
  avg : Nat
  min : Nat
  max : Nat
  deriving DecidableEq, Repr

/-- The body of the loop of lines 128-132 on the sample `r`; the sum is a
`uint64_t`. -/
def stats_step (acc : Totals) (r : Nat) : Totals :=
  let min := if r < acc.min then r else acc.min
  let max := if r > acc.max then r else acc.max
  ⟨(acc.sum + r) % 2 ^ 64, min, max⟩

/-- Lines 127-133 on the array `runtimes`: the accumulation loop over
`i < nruns`, then `avg = sum / nruns` with `nruns` converted to `uint64_t`;
a division by zero is a fault. -/
def compute_stats (nruns : Int) (runtimes : List Nat) : Option Stats := do
  let acc ← for_loop nruns.toNat (fun i acc => do
    let r ← runtimes[i]?
    pure (stats_step acc r)) (⟨0, UINT64_MAX, 0⟩ : Totals)
  let d := to_uint64 nruns
  if d = 0 then none else some ⟨acc.sum / d, acc.min, acc.max⟩

/-- The observable steps of `main`, in order. -/
inductive Event where
  | usage
  | alloc (size_A size_B size_R : Nat)
  | run_ref
  | run_impl (k : Impl) (trial : Nat)
  | check
  | verdict (c : Classification)
  | report (s : Stats)
  | dump
  deriving DecidableEq, Repr

/-- The outcome of `main`: the steps it took and the status it returned
(`none` when it faulted instead of returning). -/
structure Outcome where
  trace : List Event
  status : Option Int
  deriving DecidableEq, Repr

/-- The four buffers of lines 93-99: `A` and `B` filled with data, `R_ref`
and `R_out` with their guards set. -/
structure Buffers (α : Type) where
  A : List α
  B : List α
  R_ref : List α
  R_out : List α
  deriving DecidableEq

/-- What a run takes from code that is not under `src`.

* `declare_stats nruns nstdevs`: whether the macro `__DECLARE_STATS` of line
  86 lets the run go on. Modelled from the spec: the macro declares the
  array `runtimes`, which holds one sample per trial.
* `buffers size_A size_B size_R`: the buffers that `__ALLOC_INIT_DATA`,
  `__ALLOC_DATA` and `__SET_GUARD` give for the three sizes, or `none` when
  they end the run.
* `impl_scalar_opt`, `impl_vector`, `impl_parallel`: the three kernels of
  `impl/opt.h`, `impl/vec.h` and `impl/para.h`, each giving the output
  buffer after the call or a fault.
* `runtime i`: the value `__CALC_RUNTIME()` gives on trial `i`.
* `check_match R_ref R_out size_R` and `check_guard R_out size_R`: the values
  of `__CHECK_FLOAT_MATCH` and `__CHECK_GUARD`.
* `csv`: whether `fopen` of the CSV file succeeds. -/
structure World (α : Type) where
  declare_stats : Int → Int → Bool
  buffers : Nat → Nat → Nat → Option (Buffers α)
  impl_scalar_opt : args_t α → Option (List α)
  impl_vector : args_t α → Option (List α)
  impl_parallel : args_t α → Option (List α)
  runtime : Nat → Nat
  check_match : List α → List α → Nat → Bool
  check_guard : List α → Nat → Bool
  csv : Bool

section Run

variable {α : Type} [Zero α] [Add α] [Mul α]

/-- The function the pointer `impl` stands for. -/
def select_kernel (w : World α) : Impl → args_t α → Option (List α)
  | Impl.naive => impl_scalar_naive
  | Impl.opt => w.impl_scalar_opt
  | Impl.vec => w.impl_vector
  | Impl.para => w.impl_parallel
  | Impl.ref => impl_ref

/-- The trial loop of lines 109-114 from trial `i` on, with `left` trials to
go: each trial calls the kernel on the output buffer as the trial before
left it and stores one sample. A fault of the kernel ends the run. The
result is the trace so far and, when every trial returned, the output buffer
and the samples. -/
def trials (kernel : args_t α → Option (List α)) (k : Impl) (runtime : Nat → Nat)
    (args : args_t α) : Nat → Nat → List α → List Nat → List Event →
    List Event × Option (List α × List Nat)
  | 0, _, R, runtimes, trace => (trace, some (R, runtimes))
  | left + 1, i, R, runtimes, trace =>
    match kernel { args with R := R } with
    | none => (trace ++ [Event.run_impl k i], none)
    | some R2 =>
      trials kernel k runtime args left (i + 1) R2 (runtimes ++ [runtime i % 2 ^ 64])
        (trace ++ [Event.run_impl k i])

/-- Lines 86-114 of an accepted request with kernel `k` (the scheduler
set-up of lines 73-84 does not bear on what follows and is left out): the
declaration of the statistics, the buffers, the call `impl_ref(&args_ref)`
and the trials `(*impl)(&args)`. The result is the trace and, when no step
faulted, the reference output, the output of the last trial and the samples. -/
def kernels_phase (o : Options) (k : Impl) (w : World α) :
    List Event × Option (List α × List α × List Nat) :=
  let size_A := size_t (o.M * o.N)
  let size_B := size_t (o.N * o.P)
  let size_R := size_t (o.M * o.P)
  if w.declare_stats o.nruns o.nstdevs then
    match w.buffers size_A size_B size_R with
    | none => ([Event.alloc size_A size_B size_R], none)
    | some b =>
      match impl_ref ⟨b.A, b.B, b.R_ref, o.M, o.N, o.P, o.cpu, o.nthreads⟩ with
      | none => ([Event.alloc size_A size_B size_R, Event.run_ref], none)
      | some R_ref =>
        match trials (select_kernel w k) k w.runtime
            ⟨b.A, b.B, b.R_out, o.M, o.N, o.P, o.cpu, o.nthreads⟩ o.nruns.toNat 0 b.R_out []
            [Event.alloc size_A size_B size_R, Event.run_ref] with
        | (trace, none) => (trace, none)
        | (trace, some (R_out, runtimes)) => (trace, some (R_ref, R_out, runtimes))
  else ([], none)

/-- Lines 86-154: the run of an accepted request with kernel `k`. After the
kernels, the two checks are made and classified, the statistics are computed
and printed, the samples are dumped, and `main` returns `0`. -/
def run (o : Options) (k : Impl) (w : World α) : Outcome :=
  match kernels_phase o k w with
  | (trace, none) => ⟨trace, none⟩
  | (trace, some (R_ref, R_out, runtimes)) =>
    let size_R := size_t (o.M * o.P)
    let checked := trace ++ [Event.check,
      Event.verdict (classify (w.check_match R_ref R_out size_R) (w.check_guard R_out size_R))]
    match compute_stats o.nruns runtimes with
    | none => ⟨checked, none⟩
    | some st => ⟨checked ++ [Event.report st] ++ (if w.csv then [Event.dump] else []), some 0⟩

/-- The function `main` on the argument vector `argv` (with `argv[0]` the
program name): the parsing loop, the test `!impl || !M || !N || !P` of line
68 with its `return 1`, then the run. -/
def main (argv : List String) (w : World α) : Outcome :=
  match parse_args argv.tail init_options with
  | none => ⟨[], none⟩
  | some o =>
    match o.impl with
    | none => ⟨[Event.usage], some 1⟩
    | some k =>
      if o.M = 0 ∨ o.N = 0 ∨ o.P = 0 then ⟨[Event.usage], some 1⟩
      else run o k w

end Run

/-- The statistics line of an outcome, when it has one. -/
def reported_stats (out : Outcome) : Option Stats :=
  out.trace.findSome? (fun e => match e with
    | Event.report s => some s
    | _ => none)

/-- The classifications an outcome reports. -/
def reported_verdicts (out : Outcome) : List Classification :=
  out.trace.filterMap (fun e => match e with
    | Event.verdict c => some c
    | _ => none)

/-- A world over the integers in which the statistics are declared, buffers
of up to `2 ^ 30` elements are obtained (`A` and `B` filled with ones, the
output buffers with zeros and four guard elements), the three kernels that
are not under `src` behave as the reference kernel, every trial takes 5 ns,
both checks pass and the CSV file opens. -/
def calm_world : World Int :=
  { declare_stats := fun _ _ => true
    buffers := fun a b r =>
      if a ≤ 2 ^ 30 ∧ b ≤ 2 ^ 30 ∧ r ≤ 2 ^ 30 then
        some ⟨List.replicate a 1, List.replicate b 1, List.replicate (r + 4) 0,
          List.replicate (r + 4) 0⟩
      else none
    impl_scalar_opt := impl_ref
    impl_vector := impl_ref
    impl_parallel := impl_ref
    runtime := fun _ => 5
    check_match := fun _ _ _ => true
    check_guard := fun _ _ => true
    csv := true }

/-! ## Argument lists -/

/-- The option names the parsing loop tests for. -/
def option_names : List String :=
  ["-i", "--impl", "--M", "--N", "--P", "-n", "--nthreads", "-c", "--cpu", "--nruns",
    "--nstdevs"]

/-- The kernel names of lines 51-55. -/
def kernel_names : List String := ["naive", "ref", "opt", "vec", "para"]

/-- An item of an argument list: an option name followed by its value, or a
single word that is not an option name. -/
inductive Item where
  | opt (name value : String)
  | word (s : String)
  deriving DecidableEq, Repr

/-- The arguments an item stands for. -/
def Item.args : Item → List String
  | Item.opt name value => [name, value]
  | Item.word s => [s]

/-- An option item carries an option name, a word is not an option name. -/
def Item.ok : Item → Bool
  | Item.opt name _ => decide (name ∈ option_names)
  | Item.word s => decide (s ∉ option_names)

/-- The arguments `argv[1 ..]` a list of items stands for. -/
def items_args : List Item → List String
  | [] => []
  | it :: rest => it.args ++ items_args rest

/-- The value of the last option of the list whose name is one of `names`. -/
def last_value (names : List String) : List Item → Option String
  | [] => none
  | Item.opt name value :: rest =>
    match last_value names rest with
    | some v => some v
    | none => if name ∈ names then some value else none
  | Item.word _ :: rest => last_value names rest

/-- The effect of one item on the parsed variables. -/
def apply_item (o : Options) : Item → Options
  | Item.opt name v =>
    if name = "-i" ∨ name = "--impl" then select_impl o v
    else if name = "--M" then { o with M := size_t_of_int (atoi v) }
    else if name = "--N" then { o with N := size_t_of_int (atoi v) }
    else if name = "--P" then { o with P := size_t_of_int (atoi v) }
    else if name = "-n" ∨ name = "--nthreads" then { o with nthreads := atoi v }
    else if name = "-c" ∨ name = "--cpu" then { o with cpu := atoi v }
    else if name = "--nruns" then { o with nruns := atoi v }
    else if name = "--nstdevs" then { o with nstdevs := atoi v }
    else o
  | Item.word _ => o

end mmult

/-! ## Loop rules -/

section LoopRules

variable {σ : Type}

theorem for_loop_zero (body : Nat → σ → Option σ) (s : σ) : for_loop 0 body s = some s := by
  simp [for_loop]

theorem for_loop_succ (n : Nat) (body : Nat → σ → Option σ) (s : σ) :
    for_loop (n + 1) body s = (for_loop n body s).bind (body n) := by
  simp [for_loop, List.range_succ, List.foldlM_append]

theorem for_loop_one (body : Nat → σ → Option σ) (s : σ) : for_loop 1 body s = body 0 s := by
  rw [for_loop_succ 0, for_loop_zero]
  rfl

/-- Two bodies that agree on the counters below `n` give the same loop. -/
theorem for_loop_congr (n : Nat) (body body2 : Nat → σ → Option σ)
    (h : ∀ c, c < n → ∀ s, body c s = body2 c s) (s : σ) :
    for_loop n body s = for_loop n body2 s := by
  induction n with
  | zero => simp [for_loop_zero]
  | succ n ih =>
    rw [for_loop_succ, for_loop_succ, ih (fun c hc => h c (Nat.lt_succ_of_lt hc))]
    cases for_loop n body2 s with
    | none => rfl
    | some t => exact h n (Nat.lt_succ_self n) t

/-- Invariant rule: a body that never faults under the invariant and
re-establishes it gives a loop that returns, in a state satisfying it. -/
theorem for_loop_inv (Inv : Nat → σ → Prop) (n : Nat) (body : Nat → σ → Option σ) (s : σ)
    (h0 : Inv 0 s)
    (hstep : ∀ c, c < n → ∀ t, Inv c t → ∃ u, body c t = some u ∧ Inv (c + 1) u) :
    ∃ u, for_loop n body s = some u ∧ Inv n u := by
  induction n with
  | zero => exact ⟨s, for_loop_zero body s, h0⟩
  | succ n ih =>
    obtain ⟨t, ht, hinv⟩ := ih (fun c hc => hstep c (Nat.lt_succ_of_lt hc))
    obtain ⟨u, hu, hinv2⟩ := hstep n (Nat.lt_succ_self n) t hinv
    exact ⟨u, by rw [for_loop_succ, ht]; exact hu, hinv2⟩

/-- A property of the state kept by the body is kept by the loop. -/
theorem for_loop_keep {σ : Type} (Q : σ → Prop) (body : Nat → σ → Option σ)
    (hkeep : ∀ c t u, Q t → body c t = some u → Q u) (n : Nat) (s u : σ) (h0 : Q s)
    (h : for_loop n body s = some u) : Q u := by
  induction n generalizing u with
  | zero => rw [for_loop_zero] at h; cases h; exact h0
  | succ n ih =>
    rw [for_loop_succ] at h
    cases hn : for_loop n body s with
    | none => rw [hn] at h; cases h
    | some t => rw [hn] at h; exact hkeep n t u (ih t hn) h

/-- Fault rule: when the body keeps a property of the state and faults at
some counter `c < n` in every state with that property, the loop faults. -/
theorem for_loop_fault (Q : σ → Prop) (n : Nat) (body : Nat → σ → Option σ) (s : σ)
    (h0 : Q s) (hkeep : ∀ c t u, Q t → body c t = some u → Q u)
    (c : Nat) (hc : c < n) (hfault : ∀ t, Q t → body c t = none) :
    for_loop n body s = none := by
  have key : ∀ m, ∀ u, for_loop m body s = some u → Q u := by
    intro m
    induction m with
    | zero => intro u hu; rw [for_loop_zero] at hu; cases hu; exact h0
    | succ m ih =>
      intro u hu
      rw [for_loop_succ] at hu
      cases hm : for_loop m body s with
      | none => rw [hm] at hu; cases hu
      | some t => rw [hm] at hu; exact hkeep m t u (ih t hm) hu
  induction n with
  | zero => omega
  | succ n ih =>
    rw [for_loop_succ]
    rcases Nat.lt_succ_iff_lt_or_eq.mp hc with hlt | heq
    · rw [ih hlt]; rfl
    · subst heq
      cases hm : for_loop c body s with
      | none => rfl
      | some t => exact hfault t (key c t hm)

end LoopRules

/-! ## The reference kernel -/

section RefProofs

theorem size_t_of_lt {x : Nat} (h : x < 2 ^ 64) : size_t x = x := Nat.mod_eq_of_lt h

theorem load_nat {α : Type} [Zero α] (buf : List α) (idx : Nat) (h : idx < buf.length) :
    load buf (idx : Int) = some (buf.getD idx 0) := by
  simp [load, h, List.getD_eq_getElem?_getD]

theorem store_nat {α : Type} (buf : List α) (idx : Nat) (v : α) (h : idx < buf.length) :
    store buf (idx : Int) v = some (buf.set idx v) := by
  simp [store, h]

theorem index_lt {M N i k : Nat} (hi : i < M) (hk : k < N) : i * N + k < M * N :=
  calc i * N + k < i * N + N := by omega
    _ = (i + 1) * N := by ring
    _ ≤ M * N := Nat.mul_le_mul_right N hi

theorem size_index {M N i k : Nat} (hi : i < M) (hk : k < N) (h64 : M * N < 2 ^ 64) :
    size_t (size_t (i * N) + k) = i * N + k := by
  have h := index_lt hi hk
  have h1 : i * N < 2 ^ 64 := by omega
  rw [size_t_of_lt h1, size_t_of_lt (by omega)]

theorem div_mod_of_index {P i j : Nat} (hj : j < P) :
    (i * P + j) / P = i ∧ (i * P + j) % P = j := by
  have e : (i + 1) * P = i * P + P := by ring
  have hdiv : (i * P + j) / P = i := Nat.div_eq_of_lt_le (by omega) (by omega)
  have hmod := Nat.div_add_mod (i * P + j) P
  rw [hdiv, Nat.mul_comm] at hmod
  exact ⟨hdiv, by omega⟩

variable {α : Type} [Zero α] [Add α] [Mul α]

/-- The innermost loop of `impl_ref` returns the contract's accumulated sum. -/
theorem ref_dot (A B : List α) (M N P i j : Nat)
    (hA : A.length = M * N) (hB : B.length = N * P)
    (hA64 : A.length < 2 ^ 64) (hB64 : B.length < 2 ^ 64) (hi : i < M) (hj : j < P) :
    for_loop N (fun k sum => do
        let a ← load A (size_t (size_t (i * N) + k))
        let b ← load B (size_t (size_t (k * P) + j))
        pure (sum + a * b)) (0 : α) = some (matmul_entry A B N P i j) := by
  have key : ∀ n, n ≤ N → for_loop n (fun k sum => do
        let a ← load A (size_t (size_t (i * N) + k))
        let b ← load B (size_t (size_t (k * P) + j))
        pure (sum + a * b)) (0 : α)
      = some ((List.range n).foldl
          (fun acc k => acc + A.getD (i * N + k) 0 * B.getD (k * P + j) 0) 0) := by
    intro n
    induction n with
    | zero => intro _; simp [for_loop_zero]
    | succ n ih =>
      intro hn
      have hk : n < N := hn
      rw [for_loop_succ, ih (Nat.le_of_lt hk)]
      have ha : size_t (size_t (i * N) + n) = i * N + n :=
        size_index hi hk (hA ▸ hA64)
      have hb : size_t (size_t (n * P) + j) = n * P + j :=
        size_index hk hj (hB ▸ hB64)
      have hla := load_nat A (i * N + n) (hA ▸ index_lt hi hk)
      have hlb := load_nat B (n * P + j) (hB ▸ index_lt hk hj)
      simp only [Option.some_bind]
      rw [ha, hb, hla, hlb]
      simp [List.range_succ, List.foldl_append]
  exact key N (Nat.le_refl N)

theorem ref_row (A B : List α) (M N P i : Nat)
    (hA : A.length = M * N) (hB : B.length = N * P)
    (hA64 : A.length < 2 ^ 64) (hB64 : B.length < 2 ^ 64) (hi : i < M)
    (R0 : List α) (hR : M * P ≤ R0.length) (hR64 : R0.length < 2 ^ 64) :
    ∃ R, for_loop P (fun j R => do
      let sum ← for_loop N (fun k sum => do
        let a ← load A (size_t (size_t (i * N) + k))
        let b ← load B (size_t (size_t (k * P) + j))
        pure (sum + a * b)) (0 : α)
      store R (size_t (size_t (i * P) + j)) sum) R0 = some R ∧ ref_row_post A B N P i P R0 R := by
  apply for_loop_inv (fun n R => ref_row_post A B N P i n R0 R)
  · exact ⟨rfl, fun t => by rw [if_neg (by omega)]⟩
  · intro j hj R ⟨hlen, hget⟩
    have hidx := index_lt hi hj
    have h64 : M * P < 2 ^ 64 := by omega
    have hs : size_t (size_t (i * P) + j) = i * P + j := size_index hi hj h64
    refine ⟨R.set (i * P + j) (matmul_entry A B N P i j), ?_, ?_, ?_⟩
    · rw [ref_dot A B M N P i j hA hB hA64 hB64 hi hj, hs]
      exact store_nat R (i * P + j) _ (by omega)
    · simp [hlen]
    · intro t
      rw [List.getElem?_set]
      by_cases ht : i * P + j = t
      · subst ht
        simp
        omega
      · rw [if_neg ht, hget t]
        by_cases h1 : i * P ≤ t ∧ t < i * P + j
        · rw [if_pos h1, if_pos ⟨h1.1, by omega⟩]
        · rw [if_neg h1, if_neg (by omega)]

/-- The reference kernel returns on every workload, and its output buffer
holds the contract's sums below `M * P` and its former contents elsewhere. -/
theorem impl_ref_post (args : args_t α) (h : workload args) :
    ∃ R, impl_ref args = some R ∧ ref_post args.A args.B args.N args.P args.M args.R R := by
  obtain ⟨hA, hB, hR, hA64, hB64, hR64⟩ := h
  unfold impl_ref
  apply for_loop_inv (fun m R => ref_post args.A args.B args.N args.P m args.R R)
  · exact ⟨rfl, fun t => by simp⟩
  · intro i hi R ⟨hlen, hget⟩
    obtain ⟨R2, hrun, hlen2, hget2⟩ :=
      ref_row args.A args.B args.M args.N args.P i hA hB hA64 hB64 hi R (by omega) (by omega)
    refine ⟨R2, hrun, by omega, ?_⟩
    intro t
    have e : (i + 1) * args.P = i * args.P + args.P := by ring
    rw [hget2 t]
    by_cases h1 : i * args.P ≤ t ∧ t < i * args.P + args.P
    · have hdiv : t / args.P = i := Nat.div_eq_of_lt_le h1.1 (by omega)
      have hmod : t % args.P = t - i * args.P := by
        have := Nat.div_add_mod t args.P
        rw [hdiv, Nat.mul_comm] at this
        omega
      rw [if_pos h1, if_pos (by omega), hdiv, hmod]
    · rw [if_neg h1, hget t]
      by_cases h2 : t < i * args.P
      · rw [if_pos h2, if_pos (by omega)]
      · rw [if_neg h2, if_neg (by omega)]

/-- Frame of the reference kernel: it returns, keeps the size of the output
buffer and leaves every element from index `M * P` on as it was. -/
theorem impl_ref_frame (args : args_t α) (h : workload args) :
    ∃ R, impl_ref args = some R ∧ R.length = args.R.length ∧
      ∀ t, args.M * args.P ≤ t → R[t]? = args.R[t]? := by
  obtain ⟨R, hrun, hlen, hget⟩ := impl_ref_post args h
  exact ⟨R, hrun, hlen, fun t ht => by rw [hget t, if_neg (by omega)]⟩

/-- The output of the reference kernel below `M * P` is the same for two
argument records with the same `A`, `B`, `M`, `N`, `P`, whatever their output
buffers held before and whatever their `cpu` and `nthreads` fields. -/
theorem impl_ref_independent (a b : args_t α) (ha : workload a) (hb : workload b)
    (hA : a.A = b.A) (hB : a.B = b.B) (hM : a.M = b.M) (hN : a.N = b.N) (hP : a.P = b.P) :
    ∃ Ra Rb, impl_ref a = some Ra ∧ impl_ref b = some Rb ∧
      ∀ t, t < a.M * a.P → Ra[t]? = Rb[t]? := by
  obtain ⟨Ra, hra, _, hga⟩ := impl_ref_post a ha
  obtain ⟨Rb, hrb, _, hgb⟩ := impl_ref_post b hb
  refine ⟨Ra, Rb, hra, hrb, fun t ht => ?_⟩
  rw [hga t, hgb t, if_pos ht, if_pos (by rw [← hM, ← hP]; exact ht), hA, hB, hN, hP]

/-- Running the reference kernel again on its own output changes nothing. -/
theorem impl_ref_again (args : args_t α) (h : workload args) :
    ∃ R, impl_ref args = some R ∧ impl_ref { args with R := R } = some R := by
  obtain ⟨R, hrun, hlen, hget⟩ := impl_ref_post args h
  have h2 : workload { args with R := R } := by
    obtain ⟨hA, hB, hR, hA64, hB64, hR64⟩ := h
    exact ⟨hA, hB, by rw [hlen]; exact hR, hA64, hB64, by rw [hlen]; exact hR64⟩
  obtain ⟨R2, hrun2, hlen2, hget2⟩ := impl_ref_post { args with R := R } h2
  refine ⟨R, hrun, ?_⟩
  rw [hrun2]
  congr 1
  apply List.ext_getElem?
  intro t
  rw [hget2 t, hget t]
  split <;> rfl

/-- The trial loop on the reference kernel: `T ≥ 1` calls in a row on the
same output buffer give the result of a single call. -/
theorem impl_ref_trials (args : args_t α) (h : workload args) (T : Nat) (hT : 1 ≤ T) :
    for_loop T (fun _ R => impl_ref { args with R := R }) args.R = impl_ref args := by
  obtain ⟨R, hrun, hagain⟩ := impl_ref_again args h
  induction T, hT using Nat.le_induction with
  | base => rw [for_loop_one]
  | succ n _ ih => rw [for_loop_succ, ih, hrun, Option.some_bind, hagain]

/-- The reference kernel faults when a read of `A` in its first cell is
outside the buffer. -/
theorem ref_fault (args : args_t α) (hM : 0 < args.M) (hP : 0 < args.P) (k : Nat)
    (hk : k < args.N) (h : load args.A (size_t (size_t (0 * args.N) + k)) = none) :
    impl_ref args = none := by
  unfold impl_ref
  refine for_loop_fault (fun _ => True) _ _ _ trivial (fun _ _ _ _ _ => trivial) 0 hM ?_
  intro R _
  refine for_loop_fault (fun _ => True) _ _ _ trivial (fun _ _ _ _ _ => trivial) 0 hP ?_
  intro R2 _
  have hdot : for_loop args.N (fun k sum => do
        let a ← load args.A (size_t (size_t (0 * args.N) + k))
        let b ← load args.B (size_t (size_t (k * args.P) + 0))
        pure (sum + a * b)) (0 : α) = none := by
    refine for_loop_fault (fun _ => True) _ _ _ trivial (fun _ _ _ _ _ => trivial) k hk ?_
    intro sum _
    simp only [h]
    rfl
  simp only [hdot]
  rfl

end RefProofs

/-! ## The naive kernel -/

section NaiveProofs

theorem to_int_of_range {x : Int} (h0 : 0 ≤ x) (h1 : x < 2 ^ 31) : to_int x = x := by
  unfold to_int
  omega

theorem to_int_index {M N i k : Nat} (hi : i < M) (hk : k < N) (h : M * N ≤ 2 ^ 31) :
    to_int (to_int ((i : Int) * (N : Int)) + (k : Int)) = ((i * N + k : Nat) : Int) := by
  have hlt := index_lt hi hk
  have h1 : ((i * N : Nat) : Int) < 2 ^ 31 := by
    exact_mod_cast (show i * N < 2 ^ 31 by omega)
  have h2 : ((i * N + k : Nat) : Int) < 2 ^ 31 := by
    exact_mod_cast (show i * N + k < 2 ^ 31 by omega)
  push_cast at h1 h2 ⊢
  rw [to_int_of_range (by positivity) h1, to_int_of_range (by positivity) h2]

/-- A store keeps the size of the buffer. -/
theorem store_length {α : Type} (buf out : List α) (idx : Int) (v : α)
    (h : store buf idx v = some out) : out.length = buf.length := by
  unfold store at h
  split at h
  · cases h; simp
  · cases h

theorem bind_store_length {α : Type} (x : Option α) (buf out : List α) (idx : Int)
    (h : (do let v ← x; store buf idx v) = some out) : out.length = buf.length := by
  cases x with
  | none => cases h
  | some v => exact store_length buf out idx v h

theorem bind_store_fault {α : Type} (x : Option α) (buf : List α) (idx : Int)
    (h : ¬ (0 ≤ idx ∧ idx.toNat < buf.length)) :
    (do let v ← x; store buf idx v) = none := by
  cases x with
  | none => rfl
  | some v => simp [store, h]

variable {α : Type} [Zero α] [Add α] [Mul α]

/-- Inside the range of `int` the naive kernel is the reference kernel: when
every dimension is below `2 ^ 31` and every index it computes fits in an
`int`, both kernels give the same result on the same arguments. -/
theorem naive_eq_ref_of_int_range (args : args_t α)
    (hM : args.M < 2 ^ 31) (hN : args.N < 2 ^ 31) (hP : args.P < 2 ^ 31)
    (hMN : args.M * args.N ≤ 2 ^ 31) (hNP : args.N * args.P ≤ 2 ^ 31)
    (hMP : args.M * args.P ≤ 2 ^ 31) :
    impl_scalar_naive args = impl_ref args := by
  have eM : to_int (args.M : Int) = (args.M : Int) :=
    to_int_of_range (Int.ofNat_nonneg _) (by exact_mod_cast hM)
  have eN : to_int (args.N : Int) = (args.N : Int) :=
    to_int_of_range (Int.ofNat_nonneg _) (by exact_mod_cast hN)
  have eP : to_int (args.P : Int) = (args.P : Int) :=
    to_int_of_range (Int.ofNat_nonneg _) (by exact_mod_cast hP)
  unfold impl_scalar_naive impl_ref
  simp only [eM, eN, eP, Int.toNat_ofNat]
  apply for_loop_congr
  intro i hi R
  apply for_loop_congr
  intro j hj R2
  have hs : to_int (to_int ((i : Int) * (args.P : Int)) + (j : Int))
      = ((size_t (size_t (i * args.P) + j) : Nat) : Int) := by
    rw [to_int_index hi hj hMP, size_index hi hj (by omega)]
  have hloop : for_loop args.N (fun k sum => do
        let a ← load args.A (to_int (to_int ((i : Int) * (args.N : Int)) + (k : Int)))
        let b ← load args.B (to_int (to_int ((k : Int) * (args.P : Int)) + (j : Int)))
        pure (sum + a * b)) (0 : α)
      = for_loop args.N (fun k sum => do
        let a ← load args.A (size_t (size_t (i * args.N) + k))
        let b ← load args.B (size_t (size_t (k * args.P) + j))
        pure (sum + a * b)) (0 : α) := by
    apply for_loop_congr
    intro k hk sum
    rw [to_int_index hi hk hMN, to_int_index hk hj hNP,
      size_index hi hk (by omega), size_index hk hj (by omega)]
  rw [hloop, hs]

/-- Inside the range of `int` the naive kernel returns on every workload,
with the contract's sums below `M * P` and the former contents elsewhere. -/
theorem naive_post_of_int_range (args : args_t α) (h : workload args)
    (hM : args.M < 2 ^ 31) (hN : args.N < 2 ^ 31) (hP : args.P < 2 ^ 31)
    (hMN : args.M * args.N ≤ 2 ^ 31) (hNP : args.N * args.P ≤ 2 ^ 31)
    (hMP : args.M * args.P ≤ 2 ^ 31) :
    ∃ R, impl_scalar_naive args = some R ∧
      ref_post args.A args.B args.N args.P args.M args.R R := by
  rw [naive_eq_ref_of_int_range args hM hN hP hMN hNP hMP]
  exact impl_ref_post args h

/-- The naive kernel is the loop of its rows. -/
theorem impl_scalar_naive_rows (args : args_t α) :
    impl_scalar_naive args = for_loop (to_int args.M).toNat (naive_row args) args.R := rfl

/-- A dimension `M` whose conversion to `int` is not positive makes the
naive kernel return at once, its output buffer untouched. -/
theorem naive_noop (args : args_t α) (h : to_int args.M ≤ 0) :
    impl_scalar_naive args = some args.R := by
  unfold impl_scalar_naive
  simp only [Int.toNat_eq_zero.mpr h]
  exact for_loop_zero _ _

/-- When the three dimensions convert to the `int` 1, the naive kernel
writes the single product `0 + A[0] * B[0]` to `R[0]`. -/
theorem naive_one_by_one (args : args_t α)
    (hM : to_int args.M = 1) (hN : to_int args.N = 1) (hP : to_int args.P = 1)
    (a b r : α) (rest : List α) (hA : args.A[0]? = some a) (hB : args.B[0]? = some b)
    (hR : args.R = r :: rest) :
    impl_scalar_naive args = some ((0 + a * b) :: rest) := by
  have h3 : to_int (to_int (((0 : Nat) : Int) * 1) + ((0 : Nat) : Int)) = 0 := by decide
  have hlA : load args.A 0 = some a := by
    simp only [load, Int.toNat_zero, hA]
    rfl
  have hlB : load args.B 0 = some b := by
    simp only [load, Int.toNat_zero, hB]
    rfl
  unfold impl_scalar_naive
  simp only [hM, hN, hP, Int.toNat_one]
  simp only [for_loop_one, h3, hlA, hlB, hR]
  simp [store]

/-- The naive kernel faults when one of the store indices it computes lies
outside the output buffer. -/
theorem naive_fault (args : args_t α) (i j : Nat)
    (hi : i < (to_int args.M).toNat) (hj : j < (to_int args.P).toNat)
    (hidx : ¬ (0 ≤ to_int (to_int ((i : Int) * to_int args.P) + (j : Int)) ∧
      (to_int (to_int ((i : Int) * to_int args.P) + (j : Int))).toNat < args.R.length)) :
    impl_scalar_naive args = none := by
  unfold impl_scalar_naive
  have hrow : ∀ (r n : Nat) (t u : List α), t.length = args.R.length →
      for_loop n (fun c R => do
        let sum ← for_loop (to_int args.N).toNat (fun k sum => do
          let a ← load args.A (to_int (to_int ((r : Int) * to_int args.N) + (k : Int)))
          let b ← load args.B (to_int (to_int ((k : Int) * to_int args.P) + (c : Int)))
          pure (sum + a * b)) (0 : α)
        store R (to_int (to_int ((r : Int) * to_int args.P) + (c : Int))) sum) t = some u →
      u.length = args.R.length := by
    intro r n t u ht hu
    refine for_loop_keep (fun R => R.length = args.R.length) _ ?_ n t u ht hu
    intro c t2 u2 ht2 hu2
    rw [bind_store_length _ _ _ _ hu2, ht2]
  refine for_loop_fault (fun R => R.length = args.R.length) _ _ _ rfl ?_ i hi ?_
  · intro r t u ht hu
    exact hrow r _ t u ht hu
  · intro t ht
    refine for_loop_fault (fun R => R.length = args.R.length) _ _ _ ht ?_ j hj ?_
    · intro c t2 u2 ht2 hu2
      rw [bind_store_length _ _ _ _ hu2, ht2]
    · intro t2 ht2
      exact bind_store_fault _ _ _ (by rw [ht2]; exact hidx)

end NaiveProofs

/-! ## Facts about the concrete workloads -/

/-- Both kernels on the 2×3 by 3×2 workload: the product in the first four
elements, the guard elements untouched. -/
theorem kernels_on_small_args :
    impl_ref small_args = some [4, 5, 10, 11, 7, 7, 7, 7] ∧
      impl_scalar_naive small_args = some [4, 5, 10, 11, 7, 7, 7, 7] := by
  decide

theorem workload_wide_args (r : Int) : workload (wide_args r) := by
  simp only [workload, wide_args, List.length_replicate, List.length_cons, List.length_nil]
  norm_num

theorem to_int_wide (r : Int) : to_int ((wide_args r).M : Int) = 0 := by
  simp only [wide_args, to_int]
  norm_num

theorem wide_R_zero (r : Int) : (wide_args r).R[0]? = some r := by
  simp only [wide_args]
  rw [List.getElem?_replicate]
  norm_num

theorem workload_long_args : workload long_args := by
  simp only [workload, long_args, List.length_replicate, List.length_cons, List.length_nil]
  norm_num

/-- The contract's sum for `n` products `1 * 1` is `n`. -/
theorem ones_entry (n : Nat) :
    matmul_entry (List.replicate n (1 : Int)) (List.replicate n (1 : Int)) n 1 0 0
      = (n : Int) := by
  have key : ∀ m, m ≤ n → (List.range m).foldl (fun acc k =>
      acc + (List.replicate n (1 : Int)).getD (0 * n + k) 0
        * (List.replicate n (1 : Int)).getD (k * 1 + 0) 0) 0 = (m : Int) := by
    intro m
    induction m with
    | zero => intro _; rfl
    | succ m ih =>
      intro hm
      have hlt : m < n := hm
      rw [List.range_succ, List.foldl_append, ih (Nat.le_of_lt hlt)]
      simp [List.getD_eq_getElem?_getD, List.getElem?_replicate, hlt]
  exact key n (Nat.le_refl n)

theorem naive_long_args : impl_scalar_naive long_args = some [0 + 1 * 1, 7, 7, 7, 7] := by
  apply naive_one_by_one long_args _ _ _ 1 1 7 [7, 7, 7, 7]
  · simp only [long_args, List.getElem?_replicate]
    norm_num
  · simp only [long_args, List.getElem?_replicate]
    norm_num
  · simp only [long_args]
  · simp only [long_args]
    decide
  · simp only [long_args]
    decide
  · simp only [long_args]
    decide

theorem workload_square_args : workload square_args := by
  simp only [workload, square_args, List.length_replicate]
  norm_num

theorem square_dims :
    to_int (square_args.M : Int) = 46341 ∧ to_int (square_args.N : Int) = 1 ∧
      to_int (square_args.P : Int) = 46341 ∧ square_args.R.length = 46341 * 46341 + 4 := by
  refine ⟨by decide, by decide, by decide, ?_⟩
  simp only [square_args, List.length_replicate]

theorem square_index (i j : Nat) (h : i * 46341 + j < 2 ^ 31) :
    to_int (to_int ((i : Int) * 46341) + (j : Int)) = ((i * 46341 + j : Nat) : Int) := by
  unfold to_int
  omega

theorem square_dot (i j : Nat) (hi : i < 46341) (hj : j < 46341) :
    naive_dot square_args i j = some (0 + 1 * 1) := by
  have hA : load square_args.A ((i : Nat) : Int) = some 1 := by
    simp only [load, square_args, List.getElem?_replicate, Int.toNat_ofNat]
    simp [hi]
  have hB : load square_args.B ((j : Nat) : Int) = some 1 := by
    simp only [load, square_args, List.getElem?_replicate, Int.toNat_ofNat]
    simp [hj]
  have h1 : to_int (to_int ((i : Int) * 1) + ((0 : Nat) : Int)) = (i : Int) := by
    unfold to_int
    omega
  have h2 : to_int (to_int (((0 : Nat) : Int) * 46341) + (j : Int)) = (j : Int) := by
    unfold to_int
    omega
  unfold naive_dot
  rw [square_dims.2.1, square_dims.2.2.1]
  simp only [Int.toNat_one, for_loop_one, h1, h2, hA, hB]
  rfl

/-- A cell of the square workload whose index fits in an `int` is computed
and stored, and the buffer keeps its size. -/
theorem square_cell (i j : Nat) (hi : i < 46341) (hj : j < 46341)
    (h : i * 46341 + j < 2 ^ 31) (R : List Int) (hR : R.length = 46341 * 46341 + 4) :
    ∃ R2, naive_cell square_args i j R = some R2 ∧ R2.length = 46341 * 46341 + 4 := by
  unfold naive_cell
  rw [square_dot i j hi hj, square_dims.2.2.1, square_index i j h]
  refine ⟨R.set (i * 46341 + j) (0 + 1 * 1), ?_, by rw [List.length_set, hR]⟩
  exact store_nat R (i * 46341 + j) _ (by omega)

theorem square_row (i : Nat) (hi : i < 46340) (R : List Int)
    (hR : R.length = 46341 * 46341 + 4) :
    ∃ R2, naive_row square_args i R = some R2 ∧ R2.length = 46341 * 46341 + 4 := by
  unfold naive_row
  rw [square_dims.2.2.1]
  apply for_loop_inv (fun _ R2 => R2.length = 46341 * 46341 + 4) _ _ R hR
  intro j hj R2 hR2
  have hj2 : j < 46341 := by simpa using hj
  exact square_cell i j (by omega) hj2 (by omega) R2 hR2

/-- The run of the naive kernel on the square workload up to its first store
outside the buffer: the rows `0 .. 46339` and the cells `0 .. 41707` of row
`46340` are computed and stored, the sum of cell `(46340, 41708)` is
computed, and its store index is `-2147483648`. -/
theorem square_run :
    ∃ R1 R2 v, for_loop 46340 (naive_row square_args) square_args.R = some R1 ∧
      for_loop 41708 (naive_cell square_args 46340) R1 = some R2 ∧
      naive_dot square_args 46340 41708 = some v ∧
      to_int (to_int (((46340 : Nat) : Int) * to_int square_args.P) + ((41708 : Nat) : Int))
        = -2147483648 ∧
      store R2 (-2147483648) v = none := by
  obtain ⟨R1, h1, hlen1⟩ := for_loop_inv (fun _ R => R.length = 46341 * 46341 + 4) 46340
    (naive_row square_args) square_args.R square_dims.2.2.2
    (fun i hi R hR => square_row i hi R hR)
  obtain ⟨R2, h2, hlen2⟩ := for_loop_inv (fun _ R => R.length = 46341 * 46341 + 4) 41708
    (naive_cell square_args 46340) R1 hlen1
    (fun j hj R hR => square_cell 46340 j (by omega) (by omega) (by omega) R hR)
  refine ⟨R1, R2, 0 + 1 * 1, h1, h2, square_dot 46340 41708 (by omega) (by omega), ?_, ?_⟩
  · rw [square_dims.2.2.1]
    decide
  · simp [store]

/-! ## Claims on the kernels -/

/-- C1: on every workload (`A` of `M*N` elements, `B` of `N*P` elements,
row-major) `impl_ref` returns, and afterwards for every `i < M` and `j < P`
the element `R[i*P + j]` is the sum over `k = 0 .. N-1`, accumulated in
increasing `k` starting from `0`, of `A[i*N + k] * B[k*P + j]`. The
arithmetic of the carrier is arbitrary, so the order of accumulation is part
of the statement. -/
theorem impl_ref_computes_product {α : Type} [Zero α] [Add α] [Mul α]
    (args : args_t α) (h : workload args) :
    ∃ R, impl_ref args = some R ∧
      ∀ i j, i < args.M → j < args.P →
        R[i * args.P + j]? = some (matmul_entry args.A args.B args.N args.P i j) := by
  obtain ⟨R, hrun, _, hget⟩ := impl_ref_post args h
  refine ⟨R, hrun, fun i j hi hj => ?_⟩
  obtain ⟨hdiv, hmod⟩ := div_mod_of_index (P := args.P) (i := i) hj
  rw [hget, if_pos (index_lt hi hj), hdiv, hmod]

/-- The theorem of C1 at the 2×3 by 3×2 integer workload. -/
theorem impl_ref_computes_product_witness :
    workload small_args ∧ ∃ R, impl_ref small_args = some R ∧
      ∀ i j, i < small_args.M → j < small_args.P →
        R[i * small_args.P + j]? =
          some (matmul_entry small_args.A small_args.B small_args.N small_args.P i j) :=
  ⟨by simp [workload, small_args],
   impl_ref_computes_product small_args (by simp [workload, small_args])⟩

/-- C2, at `N = 2 ^ 32 + 1`, `M = P = 1` with `A` and `B` all ones: the
conversion of `N` to `int` gives `1`, so `impl_scalar_naive` writes the
single product `0 + 1 * 1 = 1` to `R[0]`, whereas `impl_ref` writes the sum
of the `2 ^ 32 + 1` products, `4294967297`. -/
theorem naive_differs_from_ref_at_long_args :
    workload long_args ∧
    (∃ R, impl_scalar_naive long_args = some R ∧ R[0]? = some 1) ∧
    (∃ R, impl_ref long_args = some R ∧ R[0]? = some 4294967297) := by
  refine ⟨workload_long_args, ⟨_, naive_long_args, rfl⟩, ?_⟩
  obtain ⟨R, hrun, _, hget⟩ := impl_ref_post long_args workload_long_args
  refine ⟨R, hrun, ?_⟩
  have hlt : 0 < long_args.M * long_args.P := by
    simp only [long_args]
    norm_num
  have hdiv : 0 / long_args.P = 0 := Nat.zero_div _
  have hmod : 0 % long_args.P = 0 := Nat.zero_mod _
  have he : matmul_entry long_args.A long_args.B long_args.N long_args.P 0 0
      = ((2 ^ 32 + 1 : Nat) : Int) := ones_entry (2 ^ 32 + 1)
  rw [hget 0, if_pos hlt, hdiv, hmod, he]
  norm_num

/-- C3, at `M = P = 46341`, `N = 1` with an output buffer of `M * P + 4`
elements: `impl_scalar_naive` computes and stores the rows `0 .. 46339` and
the cells `0 .. 41707` of row `46340`, computes the sum of the cell
`(46340, 41708)`, and computes for it in `int` the store index `i * P + j =
-2147483648`, outside `[0, M * P)`: the store is outside the buffer and the
kernel faults instead of returning. `impl_ref` returns on the same arguments
and leaves every element from index `M * P` on as it was. -/
theorem naive_store_index_leaves_buffer :
    workload square_args ∧
    square_args.R.length = square_args.M * square_args.P + 4 ∧
    (∃ R1 R2 v, for_loop 46340 (naive_row square_args) square_args.R = some R1 ∧
      for_loop 41708 (naive_cell square_args 46340) R1 = some R2 ∧
      naive_dot square_args 46340 41708 = some v ∧
      to_int (to_int (((46340 : Nat) : Int) * to_int square_args.P) + ((41708 : Nat) : Int))
        = -2147483648 ∧
      store R2 (-2147483648) v = none) ∧
    impl_scalar_naive square_args = none ∧
    (∃ R, impl_ref square_args = some R ∧ R.length = square_args.R.length ∧
      ∀ t, square_args.M * square_args.P ≤ t → R[t]? = square_args.R[t]?) := by
  obtain ⟨R1, R2, v, h1, h2, h3, hidx, h4⟩ := square_run
  refine ⟨workload_square_args, ?_, ⟨R1, R2, v, h1, h2, h3, hidx, h4⟩, ?_,
    impl_ref_frame square_args workload_square_args⟩
  · simp only [square_args, List.length_replicate]
  · apply naive_fault square_args 46340 41708
    · rw [square_dims.1]
      decide
    · rw [square_dims.2.2.1]
      decide
    · intro h
      have h0 := h.1
      rw [hidx] at h0
      omega

/-- C10, at `M = 2 ^ 32`, `N = P = 1`: two calls of `impl_scalar_naive` with
the same `A`, `B`, `M`, `N`, `P` and output buffers that held `0` and `7`
leave `R[0]` at `0` and at `7`: the output is the former content of `R`. On
the same two argument records `impl_ref` gives outputs that agree below
`M * P`. -/
theorem naive_output_depends_on_former_R :
    (wide_args 0).A = (wide_args 7).A ∧ (wide_args 0).B = (wide_args 7).B ∧
    (wide_args 0).M = (wide_args 7).M ∧ (wide_args 0).N = (wide_args 7).N ∧
    (wide_args 0).P = (wide_args 7).P ∧
    (∃ R0 R7, impl_scalar_naive (wide_args 0) = some R0 ∧
      impl_scalar_naive (wide_args 7) = some R7 ∧ R0[0]? = some 0 ∧ R7[0]? = some 7) ∧
    (∃ R0 R7, impl_ref (wide_args 0) = some R0 ∧ impl_ref (wide_args 7) = some R7 ∧
      ∀ t, t < (wide_args 0).M * (wide_args 0).P → R0[t]? = R7[t]?) := by
  have hA : (wide_args 0).A = (wide_args 7).A := by simp only [wide_args]
  have hB : (wide_args 0).B = (wide_args 7).B := by simp only [wide_args]
  have hM : (wide_args 0).M = (wide_args 7).M := by simp only [wide_args]
  have hN : (wide_args 0).N = (wide_args 7).N := by simp only [wide_args]
  have hP : (wide_args 0).P = (wide_args 7).P := by simp only [wide_args]
  refine ⟨hA, hB, hM, hN, hP, ⟨(wide_args 0).R, (wide_args 7).R,
    naive_noop _ ?_, naive_noop _ ?_, wide_R_zero 0, wide_R_zero 7⟩,
    impl_ref_independent _ _ (workload_wide_args 0) (workload_wide_args 7) hA hB hM hN hP⟩
  · rw [to_int_wide]
  · rw [to_int_wide]

namespace mmult

/-! ## Statistics -/

/-- The accumulation loop of lines 128-132 over an array of `n` samples is
the left fold of its body over the samples. -/
theorem stats_loop_eq_foldl (runtimes : List Nat) (init : Totals) :
    for_loop runtimes.length (fun i acc => do
      let r ← runtimes[i]?
      pure (stats_step acc r)) init = some (runtimes.foldl stats_step init) := by
  have key : ∀ m, m ≤ runtimes.length → for_loop m (fun i acc => do
      let r ← runtimes[i]?
      pure (stats_step acc r)) init = some ((runtimes.take m).foldl stats_step init) := by
    intro m
    induction m with
    | zero => intro _; simp [for_loop_zero]
    | succ m ih =>
      intro hm
      have hlt : m < runtimes.length := hm
      rw [for_loop_succ, ih (Nat.le_of_lt hlt), List.take_succ, List.getElem?_eq_getElem hlt]
      simp only [Option.some_bind, Option.bind_eq_bind, Option.toList, List.foldl_append,
        List.foldl_cons, List.foldl_nil]
      rfl
  have h := key runtimes.length (Nat.le_refl _)
  rwa [List.take_length] at h

theorem stats_foldl_sum (l : List Nat) (acc : Totals) (h : acc.sum < 2 ^ 64) :
    (l.foldl stats_step acc).sum = (acc.sum + l.sum) % 2 ^ 64 := by
  induction l generalizing acc with
  | nil => simp only [List.foldl_nil, List.sum_nil]; omega
  | cons x xs ih =>
    have hx : (stats_step acc x).sum = (acc.sum + x) % 2 ^ 64 := rfl
    have hlt : (stats_step acc x).sum < 2 ^ 64 := by rw [hx]; omega
    rw [List.foldl_cons, ih (stats_step acc x) hlt, hx, List.sum_cons]
    omega

theorem stats_foldl_min (l : List Nat) (acc : Totals) :
    (l.foldl stats_step acc).min ≤ acc.min ∧ (∀ x ∈ l, (l.foldl stats_step acc).min ≤ x) ∧
      ((l.foldl stats_step acc).min = acc.min ∨ (l.foldl stats_step acc).min ∈ l) := by
  induction l generalizing acc with
  | nil => simp
  | cons x xs ih =>
    obtain ⟨h1, h2, h3⟩ := ih (stats_step acc x)
    have hx : (stats_step acc x).min = if x < acc.min then x else acc.min := rfl
    rw [List.foldl_cons]
    refine ⟨?_, ?_, ?_⟩
    · rw [hx] at h1; split at h1 <;> omega
    · intro y hy
      rcases List.mem_cons.mp hy with rfl | hy
      · rw [hx] at h1; split at h1 <;> omega
      · exact h2 y hy
    · rcases h3 with h3 | h3
      · rw [hx] at h3
        split at h3
        · right; rw [h3]; exact List.mem_cons_self _ _
        · left; exact h3
      · right; exact List.mem_cons_of_mem _ h3

theorem stats_foldl_max (l : List Nat) (acc : Totals) :
    acc.max ≤ (l.foldl stats_step acc).max ∧ (∀ x ∈ l, x ≤ (l.foldl stats_step acc).max) ∧
      ((l.foldl stats_step acc).max = acc.max ∨ (l.foldl stats_step acc).max ∈ l) := by
  induction l generalizing acc with
  | nil => simp
  | cons x xs ih =>
    obtain ⟨h1, h2, h3⟩ := ih (stats_step acc x)
    have hx : (stats_step acc x).max = if x > acc.max then x else acc.max := rfl
    rw [List.foldl_cons]
    refine ⟨?_, ?_, ?_⟩
    · rw [hx] at h1; split at h1 <;> omega
    · intro y hy
      rcases List.mem_cons.mp hy with rfl | hy
      · rw [hx] at h1; split at h1 <;> omega
      · exact h2 y hy
    · rcases h3 with h3 | h3
      · rw [hx] at h3
        split at h3
        · right; rw [h3]; exact List.mem_cons_self _ _
        · left; exact h3
      · right; exact List.mem_cons_of_mem _ h3

theorem length_mul_le_sum (l : List Nat) (m : Nat) (h : ∀ x ∈ l, m ≤ x) :
    l.length * m ≤ l.sum := by
  induction l with
  | nil => simp
  | cons x xs ih =>
    have h1 := h x (List.mem_cons_self _ _)
    have h2 := ih (fun y hy => h y (List.mem_cons_of_mem _ hy))
    rw [List.length_cons, List.sum_cons, Nat.add_mul]
    omega

theorem sum_le_length_mul (l : List Nat) (m : Nat) (h : ∀ x ∈ l, x ≤ m) :
    l.sum ≤ l.length * m := by
  induction l with
  | nil => simp
  | cons x xs ih =>
    have h1 := h x (List.mem_cons_self _ _)
    have h2 := ih (fun y hy => h y (List.mem_cons_of_mem _ hy))
    rw [List.length_cons, List.sum_cons, Nat.add_mul]
    omega

/-- The statistics of a non-empty array of fewer than `2 ^ 31` samples: the
computation returns, the average is the quotient of the sum reduced modulo
`2 ^ 64` by the number of samples, the minimum is below every sample, the
maximum is a sample above every sample, and the minimum is a sample when the
samples are `uint64_t` values. -/
theorem compute_stats_spec (runtimes : List Nat) (hne : runtimes ≠ [])
    (hlen : runtimes.length < 2 ^ 31) :
    ∃ st, compute_stats (runtimes.length : Int) runtimes = some st ∧
      st.avg = runtimes.sum % 2 ^ 64 / runtimes.length ∧
      (∀ x ∈ runtimes, st.min ≤ x) ∧
      st.max ∈ runtimes ∧ (∀ x ∈ runtimes, x ≤ st.max) ∧
      ((∀ x ∈ runtimes, x < 2 ^ 64) → st.min ∈ runtimes) := by
  have hpos : 0 < runtimes.length := List.length_pos.mpr hne
  have hd : to_uint64 (runtimes.length : Int) = runtimes.length := by
    unfold to_uint64
    omega
  obtain ⟨y, hy⟩ := List.exists_mem_of_ne_nil runtimes hne
  have hsumf : (runtimes.foldl stats_step ⟨0, UINT64_MAX, 0⟩).sum
      = (0 + runtimes.sum) % 2 ^ 64 :=
    stats_foldl_sum runtimes ⟨0, UINT64_MAX, 0⟩ (by show 0 < 2 ^ 64; omega)
  obtain ⟨_, hmin, hminmem⟩ := stats_foldl_min runtimes ⟨0, UINT64_MAX, 0⟩
  obtain ⟨_, hmax, hmaxmem⟩ := stats_foldl_max runtimes ⟨0, UINT64_MAX, 0⟩
  refine ⟨⟨(runtimes.foldl stats_step ⟨0, UINT64_MAX, 0⟩).sum / runtimes.length,
    (runtimes.foldl stats_step ⟨0, UINT64_MAX, 0⟩).min,
    (runtimes.foldl stats_step ⟨0, UINT64_MAX, 0⟩).max⟩, ?_, ?_, hmin, ?_, hmax, ?_⟩
  · unfold compute_stats
    rw [Int.toNat_ofNat, stats_loop_eq_foldl, hd]
    simp only [Option.bind_eq_bind, Option.some_bind]
    rw [if_neg (by omega)]
  · show (runtimes.foldl stats_step ⟨0, UINT64_MAX, 0⟩).sum / runtimes.length = _
    rw [hsumf, Nat.zero_add]
  · rcases hmaxmem with h | h
    · have h1 := hmax y hy
      have h4 : (runtimes.foldl stats_step ⟨0, UINT64_MAX, 0⟩).max = 0 := h
      have h3 : y = (runtimes.foldl stats_step ⟨0, UINT64_MAX, 0⟩).max := by omega
      rw [← h3]
      exact hy
    · exact h
  · intro huint
    rcases hminmem with h | h
    · have h1 := hmin y hy
      have h2 := huint y hy
      have h4 : (runtimes.foldl stats_step ⟨0, UINT64_MAX, 0⟩).min = 2 ^ 64 - 1 := h
      have h3 : y = (runtimes.foldl stats_step ⟨0, UINT64_MAX, 0⟩).min := by omega
      show (runtimes.foldl stats_step ⟨0, UINT64_MAX, 0⟩).min ∈ runtimes
      rw [← h3]
      exact hy
    · exact h

/-- The statistics computation returns when the array holds `nruns` samples
and the divisor is not zero. -/
theorem compute_stats_returns (nruns : Int) (runtimes : List Nat)
    (hlen : runtimes.length = nruns.toNat) (hd : to_uint64 nruns ≠ 0) :
    ∃ st, compute_stats nruns runtimes = some st := by
  unfold compute_stats
  rw [← hlen, stats_loop_eq_foldl]
  simp only [Option.bind_eq_bind, Option.some_bind]
  rw [if_neg hd]
  exact ⟨_, rfl⟩

/-! ## The trace of a run -/

section RunProofs

/-- The trial loop adds only trial steps to the trace, and when it returns it
has appended one sample per trial, in order. -/
theorem trials_spec {α : Type} (kernel : args_t α → Option (List α)) (k : Impl) (runtime : Nat → Nat)
    (args : args_t α) (left i : Nat) (R : List α) (runtimes : List Nat) (trace : List Event) :
    reported_verdicts ⟨(trials kernel k runtime args left i R runtimes trace).1, none⟩
        = reported_verdicts ⟨trace, none⟩ ∧
      reported_stats ⟨(trials kernel k runtime args left i R runtimes trace).1, none⟩
        = reported_stats ⟨trace, none⟩ ∧
      ∀ R2 rt, (trials kernel k runtime args left i R runtimes trace).2 = some (R2, rt) →
        rt = runtimes ++ (List.range' i left).map (fun c => runtime c % 2 ^ 64) := by
  induction left generalizing i R runtimes trace with
  | zero =>
    refine ⟨rfl, rfl, fun R2 rt h => ?_⟩
    simp only [trials, Option.some.injEq, Prod.mk.injEq] at h
    simp [← h.2]
  | succ left ih =>
    have hv : reported_verdicts ⟨trace ++ [Event.run_impl k i], none⟩
        = reported_verdicts ⟨trace, none⟩ := by
      simp [reported_verdicts, List.filterMap_append]
    have hs : reported_stats ⟨trace ++ [Event.run_impl k i], none⟩
        = reported_stats ⟨trace, none⟩ := by
      simp [reported_stats, List.findSome?_append]
    rw [trials]
    cases hk : kernel { args with R := R } with
    | none => exact ⟨hv, hs, fun R2 rt h => by cases h⟩
    | some R3 =>
      obtain ⟨h1, h2, h3⟩ := ih (i + 1) R3 (runtimes ++ [runtime i % 2 ^ 64])
        (trace ++ [Event.run_impl k i])
      refine ⟨h1.trans hv, h2.trans hs, fun R2 rt h => ?_⟩
      rw [h3 R2 rt h]
      simp [List.range'_succ]

variable {α : Type} [Zero α] [Add α] [Mul α]

/-- The steps up to the kernels report no classification and no statistics,
and when they return they give one sample per trial. -/
theorem kernels_phase_spec (o : Options) (k : Impl) (w : World α) :
    reported_verdicts ⟨(kernels_phase o k w).1, none⟩ = [] ∧
      reported_stats ⟨(kernels_phase o k w).1, none⟩ = none ∧
      ∀ R_ref R_out rt, (kernels_phase o k w).2 = some (R_ref, R_out, rt) →
        rt = (List.range o.nruns.toNat).map (fun c => w.runtime c % 2 ^ 64) := by
  unfold kernels_phase
  by_cases hd : w.declare_stats o.nruns o.nstdevs = true
  · simp only [hd, if_true]
    cases hb : w.buffers (size_t (o.M * o.N)) (size_t (o.N * o.P)) (size_t (o.M * o.P)) with
    | none => exact ⟨rfl, rfl, fun _ _ _ h => by cases h⟩
    | some b =>
      simp only
      cases hr : impl_ref ⟨b.A, b.B, b.R_ref, o.M, o.N, o.P, o.cpu, o.nthreads⟩ with
      | none => exact ⟨rfl, rfl, fun _ _ _ h => by cases h⟩
      | some R_ref =>
        simp only
        obtain ⟨h1, h2, h3⟩ := trials_spec (select_kernel w k) k w.runtime
          ⟨b.A, b.B, b.R_out, o.M, o.N, o.P, o.cpu, o.nthreads⟩ o.nruns.toNat 0 b.R_out []
          [Event.alloc (size_t (o.M * o.N)) (size_t (o.N * o.P)) (size_t (o.M * o.P)),
            Event.run_ref]
        cases ht : trials (select_kernel w k) k w.runtime
          ⟨b.A, b.B, b.R_out, o.M, o.N, o.P, o.cpu, o.nthreads⟩ o.nruns.toNat 0 b.R_out []
          [Event.alloc (size_t (o.M * o.N)) (size_t (o.N * o.P)) (size_t (o.M * o.P)),
            Event.run_ref] with
        | mk tr res =>
          rw [ht] at h1 h2 h3
          cases res with
          | none => exact ⟨h1, h2, fun _ _ _ h => by cases h⟩
          | some pr =>
            obtain ⟨R_out, rt⟩ := pr
            refine ⟨h1, h2, fun R1 R2 rt2 h => ?_⟩
            simp only [Option.some.injEq, Prod.mk.injEq] at h
            rw [← h.2.2, h3 R_out rt rfl, List.range_eq_range']
            rfl
  · simp only [hd]
    exact ⟨rfl, rfl, fun _ _ _ h => by cases h⟩

/-- The steps up to the kernels do not consult the two checks. -/
theorem kernels_phase_checks (o : Options) (k : Impl) (w : World α)
    (cm : List α → List α → Nat → Bool) (cg : List α → Nat → Bool) :
    kernels_phase o k { w with check_match := cm, check_guard := cg } = kernels_phase o k w := by
  have hsel : select_kernel { w with check_match := cm, check_guard := cg } k
      = select_kernel w k := by
    cases k <;> rfl
  simp only [kernels_phase, hsel]

/-- A run whose kernels return and whose statistics are computed returns
`0`, and prints those statistics and the classification of the two checks. -/
theorem run_completes (o : Options) (k : Impl) (w : World α) (trace : List Event)
    (R_ref R_out : List α) (rt : List Nat) (st : Stats)
    (hphase : kernels_phase o k w = (trace, some (R_ref, R_out, rt)))
    (hst : compute_stats o.nruns rt = some st) :
    (run o k w).status = some 0 ∧ reported_stats (run o k w) = some st ∧
      reported_verdicts (run o k w) = [classify (w.check_match R_ref R_out (size_t (o.M * o.P)))
        (w.check_guard R_out (size_t (o.M * o.P)))] := by
  obtain ⟨hv, hs, _⟩ := kernels_phase_spec o k w
  rw [hphase] at hv hs
  have hrun : run o k w = ⟨trace ++ [Event.check,
      Event.verdict (classify (w.check_match R_ref R_out (size_t (o.M * o.P)))
        (w.check_guard R_out (size_t (o.M * o.P))))]
      ++ [Event.report st] ++ (if w.csv then [Event.dump] else []), some 0⟩ := by
    unfold run
    simp only [hphase, hst]
  rw [hrun]
  simp only [reported_verdicts, reported_stats] at hv hs
  refine ⟨rfl, ?_, ?_⟩
  · simp only [reported_stats, List.findSome?_append, hs, List.findSome?_cons,
      List.findSome?_nil]
    rfl
  · simp only [reported_verdicts, List.filterMap_append, hv, List.filterMap_cons,
      List.filterMap_nil]
    cases w.csv <;> rfl

/-- A run that faults in the steps up to the kernels reports no
classification. -/
theorem run_faults (o : Options) (k : Impl) (w : World α) (trace : List Event)
    (hphase : kernels_phase o k w = (trace, none)) :
    run o k w = ⟨trace, none⟩ ∧ reported_verdicts (run o k w) = [] := by
  obtain ⟨hv, _, _⟩ := kernels_phase_spec o k w
  rw [hphase] at hv
  have hrun : run o k w = ⟨trace, none⟩ := by
    unfold run
    simp only [hphase]
  rw [hrun]
  exact ⟨rfl, hv⟩

/-- A run in which `impl_ref` faults ends there. -/
theorem run_ref_faults (o : Options) (k : Impl) (w : World α) (b : Buffers α)
    (hd : w.declare_stats o.nruns o.nstdevs = true)
    (hb : w.buffers (size_t (o.M * o.N)) (size_t (o.N * o.P)) (size_t (o.M * o.P)) = some b)
    (hf : impl_ref (⟨b.A, b.B, b.R_ref, o.M, o.N, o.P, o.cpu, o.nthreads⟩ : args_t α) = none) :
    run o k w = ⟨[Event.alloc (size_t (o.M * o.N)) (size_t (o.N * o.P)) (size_t (o.M * o.P)),
      Event.run_ref], none⟩ := by
  have hphase : kernels_phase o k w
      = ([Event.alloc (size_t (o.M * o.N)) (size_t (o.N * o.P)) (size_t (o.M * o.P)),
        Event.run_ref], none) := by
    unfold kernels_phase
    simp only [hd, hb, hf, if_true]
  exact (run_faults o k w _ hphase).1

/-- On an accepted request `main` is the run. -/
theorem main_accepted (argv : List String) (w : World α) (o : Options) (k : Impl)
    (hparse : parse_args argv.tail init_options = some o) (himpl : o.impl = some k)
    (hM : o.M ≠ 0) (hN : o.N ≠ 0) (hP : o.P ≠ 0) : main argv w = run o k w := by
  unfold main
  simp only [hparse, himpl]
  rw [if_neg (by simp [hM, hN, hP])]

/-- The trial loop returns when the kernel returns on every buffer of the
size of the output buffer and keeps that size. -/
theorem trials_returns {α : Type} (kernel : args_t α → Option (List α)) (k : Impl) (runtime : Nat → Nat)
    (args : args_t α) (size : Nat)
    (hker : ∀ R, R.length = size → ∃ R2, kernel { args with R := R } = some R2 ∧ R2.length = size)
    (left i : Nat) (R : List α) (hR : R.length = size) (runtimes : List Nat)
    (trace : List Event) :
    ∃ tr R2 rt, trials kernel k runtime args left i R runtimes trace = (tr, some (R2, rt)) := by
  induction left generalizing i R runtimes trace with
  | zero => exact ⟨trace, R, runtimes, rfl⟩
  | succ left ih =>
    obtain ⟨R3, h3, hlen⟩ := hker R hR
    rw [trials, h3]
    exact ih (i + 1) R3 hlen _ _

/-- A sufficient condition for the kernels of a run of the reference kernel
to return: the statistics are declared and the buffers obtained form a
workload. -/
theorem kernels_phase_ref_returns (o : Options) (w : World α) (b : Buffers α)
    (hd : w.declare_stats o.nruns o.nstdevs = true)
    (hb : w.buffers (size_t (o.M * o.N)) (size_t (o.N * o.P)) (size_t (o.M * o.P)) = some b)
    (href : workload (⟨b.A, b.B, b.R_ref, o.M, o.N, o.P, o.cpu, o.nthreads⟩ : args_t α))
    (hout : workload (⟨b.A, b.B, b.R_out, o.M, o.N, o.P, o.cpu, o.nthreads⟩ : args_t α)) :
    ∃ tr R_ref R_out rt, kernels_phase o Impl.ref w = (tr, some (R_ref, R_out, rt)) := by
  obtain ⟨R_ref, href2, _⟩ := impl_ref_post _ href
  have hker : ∀ R, R.length = b.R_out.length →
      ∃ R2, select_kernel w Impl.ref
        { (⟨b.A, b.B, b.R_out, o.M, o.N, o.P, o.cpu, o.nthreads⟩ : args_t α) with R := R }
          = some R2 ∧ R2.length = b.R_out.length := by
    intro R hR
    have hw : workload (⟨b.A, b.B, R, o.M, o.N, o.P, o.cpu, o.nthreads⟩ : args_t α) := by
      obtain ⟨h1, h2, h3, h4, h5, h6⟩ := hout
      exact ⟨h1, h2, by rw [hR]; exact h3, h4, h5, by rw [hR]; exact h6⟩
    obtain ⟨R2, hrun, hlen, _⟩ := impl_ref_post _ hw
    exact ⟨R2, hrun, hlen.trans hR⟩
  obtain ⟨tr, R2, rt, ht⟩ := trials_returns (select_kernel w Impl.ref) Impl.ref w.runtime
    ⟨b.A, b.B, b.R_out, o.M, o.N, o.P, o.cpu, o.nthreads⟩ b.R_out.length hker o.nruns.toNat 0
    b.R_out rfl []
    [Event.alloc (size_t (o.M * o.N)) (size_t (o.N * o.P)) (size_t (o.M * o.P)), Event.run_ref]
  refine ⟨tr, R_ref, R2, rt, ?_⟩
  unfold kernels_phase
  simp only [hd, if_true, hb, href2, ht]

end RunProofs

/-! ## Parsing a list of items -/

/-- On the arguments of a list of items the parsing loop returns, having
applied the items from left to right. -/
theorem parse_items (items : List Item) (o : Options) (hok : ∀ it ∈ items, it.ok = true) :
    parse_args (items_args items) o = some (items.foldl apply_item o) := by
  induction items generalizing o with
  | nil => rfl
  | cons it rest ih =>
    have hrest := ih (o := apply_item o it) (fun x hx => hok x (List.mem_cons_of_mem _ hx))
    have hit := hok it (List.mem_cons_self _ _)
    cases it with
    | opt name v =>
      simp only [Item.ok, option_names, decide_eq_true_eq, List.mem_cons, List.mem_singleton,
        List.mem_nil_iff, or_false] at hit
      rw [List.foldl_cons, ← hrest]
      rcases hit with h | h | h | h | h | h | h | h | h | h | h <;> subst h <;>
        simp [items_args, Item.args, parse_args, apply_item]
    | word s =>
      simp only [Item.ok, option_names, decide_eq_true_eq, List.mem_cons, List.mem_singleton,
        List.mem_nil_iff, or_false, not_or] at hit
      obtain ⟨h1, h2, h3, h4, h5, h6, h7, h8, h9, h10, h11⟩ := hit
      rw [List.foldl_cons, ← hrest]
      show parse_args (s :: items_args rest) o = parse_args (items_args rest) o
      rw [parse_args.eq_def]
      simp only [h1, h2, h3, h4, h5, h6, h7, h8, h9, h10, h11, or_self, if_false]

/-- A variable that the options named `names` set to `g value` and that no
other option changes holds, after the items, `g` of the last such value, or
its initial value when there is none. -/
theorem fold_field {β : Type} (f : Options → β) (names : List String) (g : String → β)
    (hset : ∀ o name v, name ∈ names → f (apply_item o (Item.opt name v)) = g v)
    (hkeep : ∀ o name v, name ∉ names → f (apply_item o (Item.opt name v)) = f o)
    (items : List Item) (o : Options) :
    f (items.foldl apply_item o) =
      match last_value names items with
      | some v => g v
      | none => f o := by
  induction items generalizing o with
  | nil => rfl
  | cons it rest ih =>
    rw [List.foldl_cons, ih]
    cases it with
    | opt name v =>
      simp only [last_value]
      cases last_value names rest with
      | some x => rfl
      | none =>
        by_cases hn : name ∈ names
        · simp only [hn, if_true]
          exact hset o name v hn
        · simp only [hn, if_false]
          exact hkeep o name v hn
    | word s => rfl

theorem select_impl_impl (o o2 : Options) (v : String) :
    (select_impl o v).impl = (select_impl o2 v).impl := by
  unfold select_impl
  split_ifs <;> rfl

theorem select_impl_unknown (o : Options) (v : String) (h : v ∉ kernel_names) :
    (select_impl o v).impl = none := by
  simp only [kernel_names, List.mem_cons, List.mem_singleton, List.mem_nil_iff, or_false,
    not_or] at h
  obtain ⟨h1, h2, h3, h4, h5⟩ := h
  simp [select_impl, h1, h2, h3, h4, h5]

theorem select_impl_dims (o : Options) (v : String) :
    (select_impl o v).M = o.M ∧ (select_impl o v).N = o.N ∧ (select_impl o v).P = o.P := by
  unfold select_impl
  split_ifs <;> exact ⟨rfl, rfl, rfl⟩

/-- After the items, `impl` is what the last kernel name selects, or `NULL`
when no kernel name is given. -/
theorem fold_impl (items : List Item) (o : Options) :
    (items.foldl apply_item o).impl =
      match last_value ["-i", "--impl"] items with
      | some v => (select_impl init_options v).impl
      | none => o.impl := by
  apply fold_field Options.impl ["-i", "--impl"] (fun v => (select_impl init_options v).impl)
  · intro o name v hn
    simp only [List.mem_cons, List.mem_singleton, List.mem_nil_iff, or_false] at hn
    simp only [apply_item, hn, if_true]
    exact select_impl_impl _ _ _
  · intro o name v hn
    simp only [List.mem_cons, List.mem_singleton, List.mem_nil_iff, or_false] at hn
    simp only [apply_item, hn, if_false]
    split_ifs <;> rfl

theorem fold_M (items : List Item) (o : Options) :
    (items.foldl apply_item o).M =
      match last_value ["--M"] items with
      | some v => size_t_of_int (atoi v)
      | none => o.M := by
  apply fold_field Options.M ["--M"] (fun v => size_t_of_int (atoi v))
  · intro o name v hn
    simp only [List.mem_singleton] at hn
    subst hn
    simp [apply_item]
  · intro o name v hn
    simp only [List.mem_singleton] at hn
    simp only [apply_item, hn, if_false]
    split_ifs
    · exact (select_impl_dims o v).1
    all_goals rfl

theorem fold_N (items : List Item) (o : Options) :
    (items.foldl apply_item o).N =
      match last_value ["--N"] items with
      | some v => size_t_of_int (atoi v)
      | none => o.N := by
  apply fold_field Options.N ["--N"] (fun v => size_t_of_int (atoi v))
  · intro o name v hn
    simp only [List.mem_singleton] at hn
    subst hn
    simp [apply_item]
  · intro o name v hn
    simp only [List.mem_singleton] at hn
    simp only [apply_item, hn, if_false]
    split_ifs
    · exact (select_impl_dims o v).2.1
    all_goals rfl

theorem fold_P (items : List Item) (o : Options) :
    (items.foldl apply_item o).P =
      match last_value ["--P"] items with
      | some v => size_t_of_int (atoi v)
      | none => o.P := by
  apply fold_field Options.P ["--P"] (fun v => size_t_of_int (atoi v))
  · intro o name v hn
    simp only [List.mem_singleton] at hn
    subst hn
    simp [apply_item]
  · intro o name v hn
    simp only [List.mem_singleton] at hn
    simp only [apply_item, hn, if_false]
    split_ifs
    · exact (select_impl_dims o v).2.2
    all_goals rfl

/-- A dimension that is not given, or whose last value converts to `0`, is
`0` after the items. -/
theorem dim_zero (d : Nat) (lv : Option String)
    (hd : d = match lv with
      | some v => size_t_of_int (atoi v)
      | none => init_options.M)
    (h : ∀ v, lv = some v → atoi v = 0) : d = 0 := by
  cases lv with
  | none => exact hd
  | some v =>
    have hv : d = size_t_of_int (atoi v) := hd
    rw [hv, h v rfl]
    rfl

/-! ## A run that faults in the reference kernel -/

/-- With `--M -1 --N -1 --P -1` the three dimensions are `2 ^ 64 - 1`, the
three sizes wrap to `1`, and `main` faults in `impl_ref`, which reads `A[1]`
of a one-element buffer. -/
theorem main_faults_in_impl_ref :
    main ["mmult", "-i", "ref", "--M", "-1", "--N", "-1", "--P", "-1", "--nruns", "1"] calm_world
      = ⟨[Event.alloc 1 1 1, Event.run_ref], none⟩ := by
  have hparse : parse_args
      (["mmult", "-i", "ref", "--M", "-1", "--N", "-1", "--P", "-1", "--nruns", "1"]).tail
      init_options
      = some ⟨1, 0, 1, 2, 2 ^ 64 - 1, 2 ^ 64 - 1, 2 ^ 64 - 1, some Impl.ref, some "ref"⟩ := by
    decide
  rw [main_accepted _ calm_world _ Impl.ref hparse rfl (by decide) (by decide) (by decide)]
  have hfault : impl_ref (⟨[1], [1], [0, 0, 0, 0, 0], 2 ^ 64 - 1, 2 ^ 64 - 1, 2 ^ 64 - 1, 0, 1⟩ :
      args_t Int) = none :=
    ref_fault _ (by decide) (by decide) 1 (by decide) (by decide)
  rw [run_ref_faults ⟨1, 0, 1, 2, 2 ^ 64 - 1, 2 ^ 64 - 1, 2 ^ 64 - 1, some Impl.ref, some "ref"⟩
    Impl.ref calm_world ⟨[1], [1], [0, 0, 0, 0, 0], [0, 0, 0, 0, 0]⟩ rfl (by decide) hfault]
  decide

/-! ## Claims on `main.c` -/

/-- C4: the classification is a total function of `(match, guard)`: it maps
`(true, true)` to success, `(false, true)` to wrong results, `(true, false)`
to guard failed and `(false, false)` to total failure, two different pairs
get different classifications, and a run reports exactly the classification
of its pair when its kernels return, and none when it faults before the
checks. -/
theorem classify_total_and_distinct {α : Type} [Zero α] [Add α] [Mul α] :
    classify true true = Classification.success ∧
    classify false true = Classification.wrong_results ∧
    classify true false = Classification.guard_failed ∧
    classify false false = Classification.total_failure ∧
    (∀ m g m2 g2, classify m g = classify m2 g2 → m = m2 ∧ g = g2) ∧
    (∀ o k (w : World α) trace R_ref R_out rt,
      kernels_phase o k w = (trace, some (R_ref, R_out, rt)) →
      reported_verdicts (run o k w)
        = [classify (w.check_match R_ref R_out (size_t (o.M * o.P)))
            (w.check_guard R_out (size_t (o.M * o.P)))]) ∧
    (∀ o k (w : World α) trace, kernels_phase o k w = (trace, none) →
      reported_verdicts (run o k w) = []) := by
  refine ⟨rfl, rfl, rfl, rfl, by decide, ?_, ?_⟩
  · intro o k w trace R_ref R_out rt hphase
    have hrun : ∀ out : Outcome, reported_verdicts
        ⟨trace ++ [Event.check,
          Event.verdict (classify (w.check_match R_ref R_out (size_t (o.M * o.P)))
            (w.check_guard R_out (size_t (o.M * o.P))))] ++ out.trace, out.status⟩
        = [classify (w.check_match R_ref R_out (size_t (o.M * o.P)))
            (w.check_guard R_out (size_t (o.M * o.P)))]
          ++ reported_verdicts out := by
      intro out
      obtain ⟨hv, _, _⟩ := kernels_phase_spec o k w
      rw [hphase] at hv
      simp only [reported_verdicts] at hv
      simp only [reported_verdicts, List.filterMap_append, hv, List.filterMap_cons,
        List.filterMap_nil, List.nil_append, List.singleton_append]
    unfold run
    simp only [hphase]
    cases compute_stats o.nruns rt with
    | none =>
      have h := hrun ⟨[], none⟩
      simpa [reported_verdicts] using h
    | some st =>
      have h := hrun ⟨[Event.report st] ++ (if w.csv then [Event.dump] else []), some 0⟩
      simp only [List.append_assoc] at h ⊢
      rw [h]
      cases w.csv <;> rfl
  · intro o k w trace hphase
    exact (run_faults o k w trace hphase).2

/-- C5, as stated, fails: with the two samples `2 ^ 63` and `2 ^ 63` the
`uint64_t` sum wraps to `0`, so the average `0` is below the minimum
`2 ^ 63`. -/
theorem stats_avg_below_min :
    ∃ st, compute_stats 2 [2 ^ 63, 2 ^ 63] = some st ∧ st.avg < st.min :=
  ⟨⟨0, 2 ^ 63, 2 ^ 63⟩, by decide, by decide⟩

/-- C5, amended: for every trial count `T ≥ 1` (an `int`) and every sequence
of `T` samples, the statistics are computed and satisfy `avg ≤ max`; they
satisfy `min ≤ avg` as well when the sum of the samples is below `2 ^ 64`. -/
theorem stats_min_le_avg_le_max (T : Nat) (runtimes : List Nat) (hT : 1 ≤ T)
    (hint : T < 2 ^ 31) (hlen : runtimes.length = T) :
    ∃ st, compute_stats (T : Int) runtimes = some st ∧ st.avg ≤ st.max ∧
      (runtimes.sum < 2 ^ 64 → st.min ≤ st.avg) := by
  subst hlen
  have hpos : 0 < runtimes.length := hT
  obtain ⟨st, hst, havg, hmin, _, hmax, _⟩ :=
    compute_stats_spec runtimes (List.length_pos.mp hpos) hint
  refine ⟨st, hst, ?_, ?_⟩
  · rw [havg]
    exact Nat.div_le_of_le_mul
      (Nat.le_trans (Nat.mod_le _ _) (sum_le_length_mul runtimes st.max hmax))
  · intro hsum
    rw [havg, Nat.mod_eq_of_lt hsum, Nat.le_div_iff_mul_le hpos, Nat.mul_comm]
    exact length_mul_le_sum runtimes st.min hmin

/-- The theorem of C5 at the three samples 5, 3 and 10. -/
theorem stats_min_le_avg_le_max_witness :
    ∃ st, compute_stats ((3 : Nat) : Int) [5, 3, 10] = some st ∧ st.avg ≤ st.max ∧
      (([5, 3, 10] : List Nat).sum < 2 ^ 64 → st.min ≤ st.avg) :=
  stats_min_le_avg_le_max 3 [5, 3, 10] (by decide) (by decide) (by decide)

/-- C6, at `--nruns 0` with an otherwise valid request: `main` does not
return an error; it allocates, runs the reference kernel, makes and
classifies the two checks, and then faults in `sum / nruns`. -/
theorem main_nruns_zero :
    main ["mmult", "-i", "naive", "--M", "2", "--N", "2", "--P", "2", "--nruns", "0"] calm_world
      = ⟨[Event.alloc 4 4 4, Event.run_ref, Event.check,
          Event.verdict Classification.success], none⟩ := by
  decide

/-- C7, as stated, fails. With `--M 1x` the dimension is not an integer, yet
`atoi` reads `1` and the run is made and returns `0`; with `--M -1` the
conversion to `size_t` gives `2 ^ 64 - 1`, the test of line 68 passes and
`main` goes on to the allocation; with a trailing `-i` the kernel name is
missing and `main` faults in the parsing loop instead of returning. -/
theorem main_accepts_bad_arguments :
    main ["mmult", "-i", "ref", "--M", "1x", "--N", "1", "--P", "1", "--nruns", "1"] calm_world
      = ⟨[Event.alloc 1 1 1, Event.run_ref, Event.run_impl Impl.ref 0, Event.check,
          Event.verdict Classification.success, Event.report ⟨5, 5, 5⟩, Event.dump], some 0⟩ ∧
    main ["mmult", "-i", "ref", "--M", "-1", "--N", "1", "--P", "1"] calm_world
      = ⟨[Event.alloc (2 ^ 64 - 1) 1 (2 ^ 64 - 1)], none⟩ ∧
    main ["mmult", "--M", "1", "--N", "1", "--P", "1", "-i"] calm_world = ⟨[], none⟩ := by
  refine ⟨by decide, by decide, by decide⟩

/-- C7, amended: for every argument list made of options followed by their
values and of words that are not option names, in which no kernel name is
given or the last one given is not one of `naive`, `ref`, `opt`, `vec`,
`para`, or in which one of `M`, `N`, `P` is not given or the last value given
for it converts (`atoi`) to `0`, `main` prints the usage line and returns `1`
without allocating and without running a kernel. -/
theorem main_rejects_bad_request {α : Type} [Zero α] [Add α] [Mul α]
    (prog : String) (items : List Item) (w : World α)
    (hok : ∀ it ∈ items, it.ok = true)
    (hbad : (∀ v, last_value ["-i", "--impl"] items = some v → v ∉ kernel_names) ∨
      (∀ v, last_value ["--M"] items = some v → atoi v = 0) ∨
      (∀ v, last_value ["--N"] items = some v → atoi v = 0) ∨
      (∀ v, last_value ["--P"] items = some v → atoi v = 0)) :
    main (prog :: items_args items) w = ⟨[Event.usage], some 1⟩ := by
  unfold main
  rw [List.tail_cons, parse_items items init_options hok]
  simp only
  cases himpl : (items.foldl apply_item init_options).impl with
  | none => rfl
  | some k =>
    simp only
    have hzero : (items.foldl apply_item init_options).M = 0 ∨
        (items.foldl apply_item init_options).N = 0 ∨
        (items.foldl apply_item init_options).P = 0 := by
      rcases hbad with h | h | h | h
      · exfalso
        rw [fold_impl] at himpl
        cases hl : last_value ["-i", "--impl"] items with
        | none => rw [hl] at himpl; cases himpl
        | some v =>
          rw [hl] at himpl
          simp only at himpl
          rw [select_impl_unknown _ v (h v hl)] at himpl
          cases himpl
      · exact Or.inl (dim_zero _ _ (fold_M items init_options) h)
      · exact Or.inr (Or.inl (dim_zero _ _ (fold_N items init_options) h))
      · exact Or.inr (Or.inr (dim_zero _ _ (fold_P items init_options) h))
    rw [if_pos hzero]

/-- The theorem of C7 at a request with an unknown kernel name and one at a
request with `--M 0`. -/
theorem main_rejects_bad_request_witness :
    main ("mmult" :: items_args [Item.opt "-i" "fast", Item.opt "--M" "2", Item.opt "--N" "2",
        Item.opt "--P" "2"]) calm_world = ⟨[Event.usage], some 1⟩ ∧
    main ("mmult" :: items_args [Item.opt "-i" "ref", Item.opt "--M" "0", Item.opt "--N" "2",
        Item.opt "--P" "2", Item.word "verbose"]) calm_world = ⟨[Event.usage], some 1⟩ :=
  ⟨main_rejects_bad_request "mmult" _ calm_world (by decide)
      (Or.inl (fun v hv => by
        have h : last_value ["-i", "--impl"] [Item.opt "-i" "fast", Item.opt "--M" "2",
          Item.opt "--N" "2", Item.opt "--P" "2"] = some "fast" := by decide
        rw [h] at hv
        cases hv
        decide)),
   main_rejects_bad_request "mmult" _ calm_world (by decide)
      (Or.inr (Or.inl (fun v hv => by
        have h : last_value ["--M"] [Item.opt "-i" "ref", Item.opt "--M" "0",
          Item.opt "--N" "2", Item.opt "--P" "2", Item.word "verbose"] = some "0" := by decide
        rw [h] at hv
        cases hv
        decide)))⟩

/-- C8, as stated, fails: with the three samples `2 ^ 63`, `2 ^ 63` and `3`
the reported mean is `1`, not the sum of the samples divided by their
number. -/
theorem stats_avg_not_mean :
    ∃ st, compute_stats 3 [2 ^ 63, 2 ^ 63, 3] = some st ∧ st.avg = 1 ∧
      [2 ^ 63, 2 ^ 63, 3].sum / 3 = 6148914691236517206 :=
  ⟨⟨1, 3, 2 ^ 63⟩, by decide, by decide, by decide⟩

/-- C8, amended: for every non-empty sequence of `uint64_t` samples the
reported minimum is the smallest sample and the reported maximum is the
largest sample; the reported mean is the sum of all samples, reduced modulo
`2 ^ 64`, divided by their number (truncating division), which is the sum
divided by their number when the sum is below `2 ^ 64`; and a run depends on
`nstdevs` through `__DECLARE_STATS` only. -/
theorem stats_are_min_max_mean {α : Type} [Zero α] [Add α] [Mul α]
    (runtimes : List Nat) (hne : runtimes ≠ [])
    (hlen : runtimes.length < 2 ^ 31) (huint : ∀ x ∈ runtimes, x < 2 ^ 64) :
    (∃ st, compute_stats (runtimes.length : Int) runtimes = some st ∧
      st.min ∈ runtimes ∧ (∀ x ∈ runtimes, st.min ≤ x) ∧
      st.max ∈ runtimes ∧ (∀ x ∈ runtimes, x ≤ st.max) ∧
      st.avg = runtimes.sum % 2 ^ 64 / runtimes.length ∧
      (runtimes.sum < 2 ^ 64 → st.avg = runtimes.sum / runtimes.length)) ∧
    (∀ o k (w : World α) ns,
      w.declare_stats o.nruns ns = w.declare_stats o.nruns o.nstdevs →
      run { o with nstdevs := ns } k w = run o k w) := by
  obtain ⟨st, hst, havg, hmin2, hmax1, hmax2, hmin1⟩ := compute_stats_spec runtimes hne hlen
  refine ⟨⟨st, hst, hmin1 huint, hmin2, hmax1, hmax2, havg, fun hsum => ?_⟩, ?_⟩
  · rw [havg, Nat.mod_eq_of_lt hsum]
  · intro o k w ns h
    simp only [run, kernels_phase, h]

/-- The theorem of C8 at the three samples `2 ^ 63`, `2 ^ 63` and `5`, whose
sum wraps. -/
theorem stats_are_min_max_mean_witness :
    (∃ st, compute_stats (([2 ^ 63, 2 ^ 63, 5] : List Nat).length : Int) [2 ^ 63, 2 ^ 63, 5]
        = some st ∧
      st.min ∈ [2 ^ 63, 2 ^ 63, 5] ∧ (∀ x ∈ [2 ^ 63, 2 ^ 63, 5], st.min ≤ x) ∧
      st.max ∈ [2 ^ 63, 2 ^ 63, 5] ∧ (∀ x ∈ [2 ^ 63, 2 ^ 63, 5], x ≤ st.max) ∧
      st.avg = ([2 ^ 63, 2 ^ 63, 5] : List Nat).sum % 2 ^ 64
        / ([2 ^ 63, 2 ^ 63, 5] : List Nat).length ∧
      (([2 ^ 63, 2 ^ 63, 5] : List Nat).sum < 2 ^ 64 →
        st.avg = ([2 ^ 63, 2 ^ 63, 5] : List Nat).sum
          / ([2 ^ 63, 2 ^ 63, 5] : List Nat).length)) ∧
    (∀ o k (w : World Int) ns,
      w.declare_stats o.nruns ns = w.declare_stats o.nruns o.nstdevs →
      run { o with nstdevs := ns } k w = run o k w) :=
  stats_are_min_max_mean [2 ^ 63, 2 ^ 63, 5] (by decide) (by decide) (by decide)

/-- C9: for every request accepted as valid whose run completes (the
statistics are declared, the buffers obtained, `impl_ref` and every trial of
the selected kernel return, and the divisor `nruns` is not zero), whatever
the two checks give, `main` returns `0` and reports the statistics of the
samples: the same status and the same statistics for all values of
`(match, guard)`. -/
theorem main_status_and_stats_ignore_checks {α : Type} [Zero α] [Add α] [Mul α]
    (argv : List String) (w : World α) (o : Options)
    (k : Impl) (hparse : parse_args argv.tail init_options = some o) (himpl : o.impl = some k)
    (hM : o.M ≠ 0) (hN : o.N ≠ 0) (hP : o.P ≠ 0)
    (trace : List Event) (R_ref R_out : List α) (rt : List Nat)
    (hphase : kernels_phase o k w = (trace, some (R_ref, R_out, rt)))
    (hruns : to_uint64 o.nruns ≠ 0) :
    ∃ st, compute_stats o.nruns ((List.range o.nruns.toNat).map (fun i => w.runtime i % 2 ^ 64))
        = some st ∧
      ∀ cm cg, (main argv { w with check_match := cm, check_guard := cg }).status = some 0 ∧
        reported_stats (main argv { w with check_match := cm, check_guard := cg }) = some st := by
  have hrt : rt = (List.range o.nruns.toNat).map (fun i => w.runtime i % 2 ^ 64) :=
    (kernels_phase_spec o k w).2.2 R_ref R_out rt (by rw [hphase])
  obtain ⟨st, hst⟩ := compute_stats_returns o.nruns
    ((List.range o.nruns.toNat).map (fun i => w.runtime i % 2 ^ 64)) (by simp) hruns
  refine ⟨st, hst, fun cm cg => ?_⟩
  rw [main_accepted argv _ o k hparse himpl hM hN hP]
  have hphase2 : kernels_phase o k { w with check_match := cm, check_guard := cg }
      = (trace, some (R_ref, R_out, rt)) := by
    rw [kernels_phase_checks, hphase]
  obtain ⟨h1, h2, _⟩ := run_completes o k { w with check_match := cm, check_guard := cg }
    trace R_ref R_out rt st hphase2 (by rw [hrt]; exact hst)
  exact ⟨h1, h2⟩

/-- The theorem of C9 at a request for three trials of the naive kernel on
2×2 matrices. -/
theorem main_status_and_stats_ignore_checks_witness :
    ∃ st, compute_stats 3 ((List.range 3).map (fun i => calm_world.runtime i % 2 ^ 64))
        = some st ∧
      ∀ cm cg,
        (main ["mmult", "-i", "naive", "--M", "2", "--N", "2", "--P", "2", "--nruns", "3"]
          { calm_world with check_match := cm, check_guard := cg }).status = some 0 ∧
        reported_stats
          (main ["mmult", "-i", "naive", "--M", "2", "--N", "2", "--P", "2", "--nruns", "3"]
            { calm_world with check_match := cm, check_guard := cg }) = some st :=
  main_status_and_stats_ignore_checks
    ["mmult", "-i", "naive", "--M", "2", "--N", "2", "--P", "2", "--nruns", "3"] calm_world
    ⟨1, 0, 3, 2, 2, 2, 2, some Impl.naive, some "naive"⟩ Impl.naive
    (by decide) rfl (by decide) (by decide) (by decide)
    [Event.alloc 4 4 4, Event.run_ref, Event.run_impl Impl.naive 0, Event.run_impl Impl.naive 1,
      Event.run_impl Impl.naive 2]
    [2, 2, 2, 2, 0, 0, 0, 0] [2, 2, 2, 2, 0, 0, 0, 0] [5, 5, 5]
    (by decide) (by decide)

end mmult
